import Mathlib

/-!
# Verification of the win-pytreat dataset naming/lookup utilities

Shallow embedding of the subject directory/file naming utilities of the
win-pytreat practicals repository:

* `rename_subject_dirs`   (getting_started/03_file_management/.solutions/re_name_subject_directories.py)
* `reorganise_data_set`   (getting_started/03_file_management/.solutions/re_organise_a_data_set.py)
* `rename_subject_files`  (getting_started/file_management/.solutions/re_name_subject_files.py)
* `get_image`, `get_image_nogroup`
                          (getting_started/file_management/.solutions/write_a_function_to_return_a_specific_image_file.py)
* `nifti_splitext`        (getting_started/file_management/.solutions/write_your_own_os_path_splitext.py)

Modelling conventions:

* A directory listing is a `List String` of entry basenames.  The Python code
  globs `op.join(dirname, pattern)` and then splits the resulting *path* on
  `'_'`; for a dataset directory name free of underscores this is exactly a
  split of the entry basename, so the embedding works on basenames.
* Python strings are Lean `String`s manipulated through their character lists
  (`String.data`); Python string indexing, slicing, `split`, `endswith` and
  `%`-style zero padding are all character based, so `List Char` is the exact
  model.
* Fallible operations (`int(...)`, `list.index(...)`, `max([])`,
  `os.mkdir`, `os.rename` on a missing source, `shutil.move` onto an existing
  destination path) are modelled with `Option`: `none` is an uncaught Python
  exception.
* `shutil.move(src, dst)` follows the library semantics: if `dst` exists and
  is a directory then a samefile `src` is renamed onto itself (a no-op),
  otherwise `src` is moved *inside* `dst` (failing if `dst/src` already
  exists); if `dst` does not exist the move is a plain rename.
* Floating point appears only in `int(np.ceil(np.log10(max + 1)))`; it is
  modelled by the exact integer ceiling logarithm (IEEE double `log10` is
  exact on the argument range relevant to subject counts).
-/

namespace WinPytreat

/-! ## Decimal digits and Python's `str`/`int` on naturals -/

/-- The ten decimal digit characters. -/
def digitChars : List Char := ['0', '1', '2', '3', '4', '5', '6', '7', '8', '9']

/-- `c` is a decimal digit character. -/
def isDigitCh (c : Char) : Bool := decide (c ∈ digitChars)

/-- Numeric value of a digit character. -/
def charVal (c : Char) : Nat := c.toNat - '0'.toNat

/-- The digit character for a value `< 10`. -/
def digitChar : Nat → Char
  | 0 => '0' | 1 => '1' | 2 => '2' | 3 => '3' | 4 => '4'
  | 5 => '5' | 6 => '6' | 7 => '7' | 8 => '8' | _ => '9'

/-- Value of a digit string, as computed by Python's `int` on an
all-digit string (most significant digit first). -/
def natOfDigits (l : List Char) : Nat := l.foldl (fun a c => 10 * a + charVal c) 0

/-- Python's `int(s)` restricted to its behaviour on directory-name
fragments: it succeeds exactly on nonempty all-digit strings and returns
their value, and raises `ValueError` (here `none`) otherwise.  (`int` also
accepts surrounding whitespace and a sign; no input considered in this
development contains either.) -/
def pyInt (l : List Char) : Option Nat :=
  if l ≠ [] ∧ l.all isDigitCh then some (natOfDigits l) else none

/-- Fuel-driven decimal writer; `natReprAux (n+1) n` has enough fuel for `n`. -/
def natReprAux : Nat → Nat → List Char
  | 0, _ => []
  | fuel + 1, n =>
    if n < 10 then [digitChar n] else natReprAux fuel (n / 10) ++ [digitChar (n % 10)]

/-- Python's `str(n)` for a non-negative integer `n`, as a character list. -/
def natRepr (n : Nat) : List Char := natReprAux (n + 1) n

theorem natReprAux_fuel_irrel (n : Nat) :
    ∀ f₁ f₂ : Nat, n < f₁ → n < f₂ → natReprAux f₁ n = natReprAux f₂ n := by
  induction n using Nat.strong_induction_on with
  | _ n ih =>
    intro f₁ f₂ h₁ h₂
    match f₁, f₂ with
    | f₁ + 1, f₂ + 1 =>
      by_cases h10 : n < 10
      · simp [natReprAux, h10]
      · have hdiv : n / 10 < n := Nat.div_lt_self (by omega) (by omega)
        simp only [natReprAux, h10, if_false]
        rw [ih (n / 10) hdiv f₁ f₂ (by omega) (by omega)]

/-- Recurrence for `natRepr`. -/
theorem natRepr_eq (n : Nat) :
    natRepr n = if n < 10 then [digitChar n] else natRepr (n / 10) ++ [digitChar (n % 10)] := by
  have h1 : natRepr n =
      if n < 10 then [digitChar n] else natReprAux n (n / 10) ++ [digitChar (n % 10)] := rfl
  by_cases h10 : n < 10
  · rw [h1]; simp [h10]
  · have hdiv : n / 10 < n := Nat.div_lt_self (by omega) (by omega)
    rw [h1]
    simp only [h10, if_false]
    rw [natReprAux_fuel_irrel (n / 10) n (n / 10 + 1) (by omega) (by omega)]
    rfl

theorem natRepr_ne_nil (n : Nat) : natRepr n ≠ [] := by
  rw [natRepr_eq]
  by_cases h10 : n < 10 <;> simp [h10]

theorem digitChar_isDigit (d : Nat) : isDigitCh (digitChar d) = true := by
  unfold digitChar
  split <;> decide

theorem charVal_digitChar (d : Nat) (h : d < 10) : charVal (digitChar d) = d := by
  interval_cases d <;> decide

theorem natRepr_all_digits (n : Nat) : ∀ c ∈ natRepr n, isDigitCh c = true := by
  induction n using Nat.strong_induction_on with
  | _ n ih =>
    rw [natRepr_eq]
    by_cases h10 : n < 10
    · simp [h10, digitChar_isDigit]
    · have hdiv : n / 10 < n := Nat.div_lt_self (by omega) (by omega)
      simp only [h10, if_false]
      intro c hc
      rcases List.mem_append.mp hc with h | h
      · exact ih (n / 10) hdiv c h
      · simp only [List.mem_singleton] at h
        subst h; exact digitChar_isDigit _

theorem natOfDigits_append (a b : List Char) :
    natOfDigits (a ++ b) = natOfDigits a * 10 ^ b.length + natOfDigits b := by
  have key : ∀ (l : List Char) (acc : Nat),
      l.foldl (fun a c => 10 * a + charVal c) acc =
        acc * 10 ^ l.length + l.foldl (fun a c => 10 * a + charVal c) 0 := by
    intro l
    induction l with
    | nil => intro acc; simp
    | cons c t ih =>
      intro acc
      simp only [List.foldl_cons, List.length_cons]
      rw [ih (10 * acc + charVal c), ih (10 * 0 + charVal c)]
      ring
  unfold natOfDigits
  rw [List.foldl_append, key b (List.foldl _ 0 a)]

theorem natOfDigits_natRepr (n : Nat) : natOfDigits (natRepr n) = n := by
  induction n using Nat.strong_induction_on with
  | _ n ih =>
    rw [natRepr_eq]
    by_cases h10 : n < 10
    · simp only [h10, if_true]
      simp [natOfDigits, charVal_digitChar n h10]
    · have hdiv : n / 10 < n := Nat.div_lt_self (by omega) (by omega)
      simp only [h10, if_false]
      rw [natOfDigits_append, ih (n / 10) hdiv]
      have : natOfDigits [digitChar (n % 10)] = n % 10 := by
        simp [natOfDigits, charVal_digitChar (n % 10) (Nat.mod_lt _ (by omega))]
      rw [this]
      simp only [List.length_singleton, pow_one]
      omega

theorem mem_digitChars_of_isDigitCh {c : Char} (h : isDigitCh c = true) : c ∈ digitChars :=
  of_decide_eq_true h

theorem charVal_lt_ten {c : Char} (h : isDigitCh c = true) : charVal c < 10 := by
  have hm := mem_digitChars_of_isDigitCh h
  simp only [digitChars, List.mem_cons, List.not_mem_nil, or_false] at hm
  rcases hm with rfl | rfl | rfl | rfl | rfl | rfl | rfl | rfl | rfl | rfl <;> decide

theorem digitChar_charVal {c : Char} (h : isDigitCh c = true) : digitChar (charVal c) = c := by
  have hm := mem_digitChars_of_isDigitCh h
  simp only [digitChars, List.mem_cons, List.not_mem_nil, or_false] at hm
  rcases hm with rfl | rfl | rfl | rfl | rfl | rfl | rfl | rfl | rfl | rfl <;> decide

theorem digit_ne_underscore {c : Char} (h : isDigitCh c = true) : c ≠ '_' := by
  have hm := mem_digitChars_of_isDigitCh h
  simp only [digitChars, List.mem_cons, List.not_mem_nil, or_false] at hm
  rcases hm with rfl | rfl | rfl | rfl | rfl | rfl | rfl | rfl | rfl | rfl <;> decide

theorem eq_zeroCh_of_charVal_eq_zero {c : Char} (h : isDigitCh c = true)
    (hv : charVal c = 0) : c = '0' := by
  have hm := mem_digitChars_of_isDigitCh h
  simp only [digitChars, List.mem_cons, List.not_mem_nil, or_false] at hm
  rcases hm with rfl | rfl | rfl | rfl | rfl | rfl | rfl | rfl | rfl | rfl <;> revert hv <;> decide

theorem one_le_charVal_of_ne_zeroCh {c : Char} (h : isDigitCh c = true)
    (hne : c ≠ '0') : 1 ≤ charVal c := by
  rcases Nat.eq_zero_or_pos (charVal c) with h0 | h1
  · exact absurd (eq_zeroCh_of_charVal_eq_zero h h0) hne
  · exact h1

theorem natOfDigits_singleton (c : Char) : natOfDigits [c] = charVal c := by
  simp [natOfDigits]

theorem natOfDigits_cons (c : Char) (t : List Char) :
    natOfDigits (c :: t) = charVal c * 10 ^ t.length + natOfDigits t := by
  have := natOfDigits_append [c] t
  simpa [natOfDigits_singleton] using this

theorem pow_le_natOfDigits_of_head_ne_zero {c : Char} {t : List Char}
    (h : isDigitCh c = true) (hne : c ≠ '0') :
    10 ^ t.length ≤ natOfDigits (c :: t) := by
  rw [natOfDigits_cons]
  have h1 := one_le_charVal_of_ne_zeroCh h hne
  calc 10 ^ t.length = 1 * 10 ^ t.length := (one_mul _).symm
    _ ≤ charVal c * 10 ^ t.length := Nat.mul_le_mul_right _ h1
    _ ≤ charVal c * 10 ^ t.length + natOfDigits t := Nat.le_add_right _ _

/-- Writing back the value of a digit string without a superfluous leading
zero recovers the string: `str(int(l)) == l`. -/
theorem natRepr_natOfDigits : ∀ l : List Char, l ≠ [] →
    (∀ c ∈ l, isDigitCh c = true) →
    (∀ c t, l = c :: t → c = '0' → t = []) →
    natRepr (natOfDigits l) = l := by
  intro l
  induction l using List.reverseRecOn with
  | nil => intro hne _ _; exact absurd rfl hne
  | append_singleton l' c ih =>
    intro hne hd hh
    rcases eq_or_ne l' [] with rfl | hl'
    · simp only [List.nil_append]
      rw [natOfDigits_singleton, natRepr_eq]
      have hc : isDigitCh c = true := hd c (by simp)
      simp [charVal_lt_ten hc, digitChar_charVal hc]
    · obtain ⟨c₀, t', rfl⟩ := List.exists_cons_of_ne_nil hl'
      have hc₀d : isDigitCh c₀ = true := hd c₀ (by simp)
      have hc₀ : c₀ ≠ '0' := by
        intro h0
        have := hh c₀ (t' ++ [c]) (by simp) h0
        simp at this
      have hcd : isDigitCh c = true := hd c (by simp)
      have hv : natOfDigits ((c₀ :: t') ++ [c]) =
          natOfDigits (c₀ :: t') * 10 + charVal c := by
        rw [natOfDigits_append]
        simp [natOfDigits_singleton]
      set v := natOfDigits (c₀ :: t') with hvdef
      have hvlow : 10 ^ t'.length ≤ v := pow_le_natOfDigits_of_head_ne_zero hc₀d hc₀
      have hv1 : 1 ≤ v := le_trans (Nat.one_le_pow _ _ (by omega)) hvlow
      have hvc : charVal c < 10 := charVal_lt_ten hcd
      have hn10 : ¬ (v * 10 + charVal c < 10) := by omega
      rw [hv, natRepr_eq]
      simp only [hn10, if_false]
      have hdiv : (v * 10 + charVal c) / 10 = v := by omega
      have hmod : (v * 10 + charVal c) % 10 = charVal c := by omega
      rw [hdiv, hmod, digitChar_charVal hcd]
      have ihl : natRepr v = c₀ :: t' := by
        apply ih (by simp)
          (fun x hx => hd x (by simp only [List.mem_cons, List.mem_append] at hx ⊢; tauto))
        intro a b hab h0
        have ha : a = c₀ := by
          have := congrArg List.head? hab
          simpa using this.symm
        exact absurd (ha ▸ h0) hc₀
      rw [ihl]

theorem natOfDigits_replicate_zero (k : Nat) :
    natOfDigits (List.replicate k '0') = 0 := by
  induction k with
  | zero => rfl
  | succ k ih =>
    rw [List.replicate_succ, natOfDigits_cons, ih]
    simp [charVal]

theorem natOfDigits_replicate_zero_append (k : Nat) (l : List Char) :
    natOfDigits (List.replicate k '0' ++ l) = natOfDigits l := by
  rw [natOfDigits_append, natOfDigits_replicate_zero]
  simp

/-- Every nonempty all-digit string is its value's canonical decimal
representation preceded by some run of `'0'` characters. -/
theorem digits_decomp : ∀ l : List Char, l ≠ [] →
    (∀ c ∈ l, isDigitCh c = true) →
    l = List.replicate (l.length - (natRepr (natOfDigits l)).length) '0' ++
        natRepr (natOfDigits l) := by
  intro l
  induction l with
  | nil => intro hne _; exact absurd rfl hne
  | cons c t ih =>
    intro _ hd
    have hcd : isDigitCh c = true := hd c (by simp)
    by_cases hc : c = '0'
    · subst hc
      rcases eq_or_ne t [] with rfl | ht
      · decide
      · have hvt : natOfDigits ('0' :: t) = natOfDigits t := by
          rw [natOfDigits_cons]
          simp [charVal]
        have iht := ih ht (fun x hx => hd x (by simp [hx]))
        have hlen : (natRepr (natOfDigits t)).length ≤ t.length := by
          have hl := congrArg List.length iht
          simp only [List.length_append, List.length_replicate] at hl
          omega
        rw [hvt, List.length_cons]
        have harith : t.length + 1 - (natRepr (natOfDigits t)).length =
            (t.length - (natRepr (natOfDigits t)).length) + 1 := by omega
        rw [harith, List.replicate_succ, List.cons_append]
        exact congrArg _ iht
    · have hcanon : natRepr (natOfDigits (c :: t)) = c :: t := by
        apply natRepr_natOfDigits (c :: t) (by simp) hd
        intro a b hab h0
        have hca : c = a := by injection hab
        exact absurd (hca ▸ h0) hc
      rw [hcanon]
      simp

/-! ## Zero padding (Python `'{:0Nd}'.format`) -/

/-- Python's `'{:0wd}'.format(n)` applied to the digit string `l = str(n)`:
left-pad with `'0'` to width `w` (no-op when `l` is already long enough). -/
def padTo (w : Nat) (l : List Char) : List Char := List.replicate (w - l.length) '0' ++ l

theorem natOfDigits_padTo (w : Nat) (l : List Char) :
    natOfDigits (padTo w l) = natOfDigits l :=
  natOfDigits_replicate_zero_append _ l

theorem padTo_all_digits (w : Nat) (l : List Char) (hd : ∀ c ∈ l, isDigitCh c = true) :
    ∀ c ∈ padTo w l, isDigitCh c = true := by
  intro c hc
  rcases List.mem_append.mp hc with h | h
  · rw [List.eq_of_mem_replicate h]; decide
  · exact hd c h

theorem padTo_ne_nil (w : Nat) (l : List Char) (h : l ≠ []) : padTo w l ≠ [] := by
  simp [padTo, h]

/-- A value padded to width `0` or `1` is its plain representation whenever the
value is a single digit. -/
theorem padTo_small (w : Nat) (n : Nat) (hn : n < 10) (hw : w ≤ 1) :
    padTo w (natRepr n) = natRepr n := by
  have h1 : natRepr n = [digitChar n] := by rw [natRepr_eq]; simp [hn]
  simp [padTo, h1]
  omega

/-! ## Exact integer model of `int(np.ceil(np.log10 n))` -/

/-- Fuel-driven ceiling base-10 logarithm; `ceilLog10Aux n n` has enough fuel. -/
def ceilLog10Aux : Nat → Nat → Nat
  | 0, _ => 0
  | fuel + 1, n => if n ≤ 1 then 0 else ceilLog10Aux fuel ((n + 9) / 10) + 1

/-- `⌈log₁₀ n⌉` for `n ≥ 1` (and `0` at `n = 0`): the exact value of
`int(np.ceil(np.log10(n)))` on exact arithmetic. -/
def ceilLog10 (n : Nat) : Nat := ceilLog10Aux n n

theorem ceilLog10Aux_fuel_irrel (n : Nat) :
    ∀ f₁ f₂ : Nat, n ≤ f₁ → n ≤ f₂ → ceilLog10Aux f₁ n = ceilLog10Aux f₂ n := by
  induction n using Nat.strong_induction_on with
  | _ n ih =>
    intro f₁ f₂ h₁ h₂
    by_cases hn : n ≤ 1
    · match f₁, f₂ with
      | 0, 0 => rfl
      | 0, f₂ + 1 => simp [ceilLog10Aux, hn]
      | f₁ + 1, 0 => simp [ceilLog10Aux, hn]
      | f₁ + 1, f₂ + 1 => simp [ceilLog10Aux, hn]
    · match f₁, f₂ with
      | 0, _ => omega
      | f₁ + 1, 0 => omega
      | f₁ + 1, f₂ + 1 =>
        have hm : (n + 9) / 10 < n := by omega
        have hmf : (n + 9) / 10 ≤ f₁ ∧ (n + 9) / 10 ≤ f₂ := by omega
        simp only [ceilLog10Aux, hn, if_false]
        rw [ih ((n + 9) / 10) hm f₁ f₂ hmf.1 hmf.2]

/-- Recurrence for `ceilLog10`. -/
theorem ceilLog10_eq (n : Nat) :
    ceilLog10 n = if n ≤ 1 then 0 else ceilLog10 ((n + 9) / 10) + 1 := by
  by_cases hn : n ≤ 1
  · interval_cases n <;> decide
  · match n, hn with
    | n + 2, _ =>
      have h1 : ceilLog10 (n + 2) = ceilLog10Aux (n + 1) ((n + 2 + 9) / 10) + 1 := by
        show ceilLog10Aux (n + 2) (n + 2) = _
        simp [ceilLog10Aux]
      rw [h1]
      have hgt : ¬ (n + 2 ≤ 1) := by omega
      rw [if_neg hgt]
      rw [ceilLog10Aux_fuel_irrel ((n + 2 + 9) / 10) (n + 1) ((n + 2 + 9) / 10)
        (by omega) (le_refl _)]
      rfl

theorem ceilLog10_pos {n : Nat} (h : 2 ≤ n) : 1 ≤ ceilLog10 n := by
  rw [ceilLog10_eq]
  have : ¬ n ≤ 1 := by omega
  simp [this]

/-- `ceilLog10` really is the ceiling logarithm: `n ≤ 10 ^ ceilLog10 n`. -/
theorem le_pow_ceilLog10 (n : Nat) : n ≤ 10 ^ ceilLog10 n := by
  induction n using Nat.strong_induction_on with
  | _ n ih =>
    rw [ceilLog10_eq]
    by_cases hn : n ≤ 1
    · simp [hn]
    · have hm : (n + 9) / 10 < n := by omega
      simp only [hn, if_false, pow_succ]
      have := ih ((n + 9) / 10) hm
      have h10 : n ≤ 10 * ((n + 9) / 10) := by omega
      calc n ≤ 10 * ((n + 9) / 10) := h10
        _ ≤ 10 * 10 ^ ceilLog10 ((n + 9) / 10) := by
            exact Nat.mul_le_mul_left _ this
        _ = 10 ^ ceilLog10 ((n + 9) / 10) * 10 := by ring

/-- `ceilLog10` is the least such exponent. -/
theorem ceilLog10_le {n k : Nat} (h : n ≤ 10 ^ k) : ceilLog10 n ≤ k := by
  induction n using Nat.strong_induction_on generalizing k with
  | _ n ih =>
    rw [ceilLog10_eq]
    by_cases hn : n ≤ 1
    · simp [hn]
    · simp only [hn, if_false]
      match k with
      | 0 => simp at h; omega
      | k + 1 =>
        have hm : (n + 9) / 10 < n := by omega
        have hX : n ≤ 10 * 10 ^ k := by
          rw [pow_succ] at h; omega
        have : (n + 9) / 10 ≤ 10 ^ k := by omega
        have := ih ((n + 9) / 10) hm this
        omega

/-! ## Python `max` over a list of naturals -/

/-- `max(l)` for a list of naturals (the Python call raises on `[]`, which the
embeddings guard separately; the `0` seed is unreachable there). -/
def maxList (l : List Nat) : Nat := l.foldl max 0

theorem foldl_max_le (l : List Nat) : ∀ acc, acc ≤ l.foldl max acc ∧
    ∀ a ∈ l, a ≤ l.foldl max acc := by
  induction l with
  | nil => intro acc; simp
  | cons c t ih =>
    intro acc
    have h1 := ih (max acc c)
    constructor
    · exact le_trans (le_max_left acc c) h1.1
    · intro a ha
      rcases List.mem_cons.mp ha with rfl | ha
      · exact le_trans (le_max_right acc a) h1.1
      · exact h1.2 a ha

theorem le_maxList {l : List Nat} {a : Nat} (h : a ∈ l) : a ≤ maxList l :=
  (foldl_max_le l 0).2 a h

theorem maxList_eq_zero {l : List Nat} {a : Nat} (h : a ∈ l)
    (h0 : maxList l = 0) : a = 0 :=
  Nat.le_zero.mp (h0 ▸ le_maxList h)

/-! ## Python string primitives -/

theorem string_data_append (a b : String) : (a ++ b).data = a.data ++ b.data := rfl

theorem string_data_inj {a b : String} (h : a.data = b.data) : a = b := by
  cases a; cases b; exact congrArg String.mk h

/-- Python's `s.split('_')` (single-character separator), on character lists:
splits at every separator occurrence, keeping empty parts. -/
def splitCh (sep : Char) : List Char → List (List Char)
  | [] => [[]]
  | c :: t =>
    if c = sep then [] :: splitCh sep t
    else
      match splitCh sep t with
      | [] => [[c]]
      | h :: r => (c :: h) :: r

theorem splitCh_ne_nil (sep : Char) : ∀ l : List Char, splitCh sep l ≠ [] := by
  intro l
  induction l with
  | nil => simp [splitCh]
  | cons c t ih =>
    by_cases hc : c = sep
    · simp [splitCh, hc]
    · simp only [splitCh, hc, if_false]
      match h : splitCh sep t with
      | [] => simp
      | h₀ :: r => simp

theorem splitCh_no_sep (sep : Char) : ∀ l : List Char, sep ∉ l → splitCh sep l = [l] := by
  intro l
  induction l with
  | nil => intro _; rfl
  | cons c t ih =>
    intro hmem
    have hc : ¬ c = sep := fun h => hmem (by simp [h])
    have ht : sep ∉ t := fun h => hmem (by simp [h])
    simp only [splitCh, hc, if_false]
    rw [ih ht]

theorem splitCh_append (sep : Char) : ∀ l₁ l₂ : List Char, sep ∉ l₁ →
    splitCh sep (l₁ ++ sep :: l₂) = l₁ :: splitCh sep l₂ := by
  intro l₁
  induction l₁ with
  | nil => intro l₂ _; simp [splitCh]
  | cons c t ih =>
    intro l₂ hmem
    have hc : ¬ c = sep := fun h => hmem (by simp [h])
    have ht : sep ∉ t := fun h => hmem (by simp [h])
    simp only [List.cons_append, splitCh, hc, if_false]
    rw [List.append_eq, ih l₂ ht]

/-- Python's `s.startswith(pre)` on character lists. -/
def startsL (pre l : List Char) : Bool := decide (l.take pre.length = pre)

theorem startsL_iff {pre l : List Char} : startsL pre l = true ↔ ∃ t, l = pre ++ t := by
  constructor
  · intro h
    have h' : l.take pre.length = pre := of_decide_eq_true h
    have hsplit := (List.take_append_drop pre.length l).symm
    rw [h'] at hsplit
    exact ⟨l.drop pre.length, hsplit⟩
  · rintro ⟨t, rfl⟩
    apply decide_eq_true
    simp [List.take_left]

/-- Python's `s.endswith(suf)` on character lists. -/
def endsL (l suf : List Char) : Bool :=
  decide (suf.length ≤ l.length ∧ l.drop (l.length - suf.length) = suf)

theorem endsL_iff {l suf : List Char} : endsL l suf = true ↔ ∃ t, l = t ++ suf := by
  constructor
  · intro h
    have h' := of_decide_eq_true h
    have hsplit := (List.take_append_drop (l.length - suf.length) l).symm
    rw [h'.2] at hsplit
    exact ⟨l.take (l.length - suf.length), hsplit⟩
  · rintro ⟨t, rfl⟩
    apply decide_eq_true
    refine ⟨by simp, ?_⟩
    have : (t ++ suf).length - suf.length = t.length := by simp
    rw [this, List.drop_left]

/-! ## `nifti_splitext`
(`getting_started/file_management/.solutions/write_your_own_os_path_splitext.py`) -/

/-- Python's `s[:-n]` (note `s[:-0]` is the empty string). -/
def pySliceToNegIdx (s : String) (n : Nat) : String :=
  if n = 0 then "" else String.mk (s.data.take (s.data.length - n))

/-- Python's `s[-n:]` (note `s[-0:]` is the whole string). -/
def pySliceFromNegIdx (s : String) (n : Nat) : String :=
  if n = 0 then s else String.mk (s.data.drop (s.data.length - n))

/-- `nifti_splitext(path, exts=None)`: split `path` into a prefix and a
recognised extension.  `exts` defaults to `['.nii', '.nii.gz']`; the first
extension whose suffix matches wins (`extMatches.index(True)`), and with no
match the whole path is returned with an empty extension. -/
def nifti_splitext (path : String) (extsArg : Option (List String)) : String × String :=
  let exts := extsArg.getD [".nii", ".nii.gz"]
  let extMatches := exts.map fun e => endsL path.data e.data
  if ¬ extMatches.any (fun b => b) then
    (path, "")
  else
    let extIdx := extMatches.indexOf true
    let extLen := (exts.getD extIdx "").data.length
    (pySliceToNegIdx path extLen, pySliceFromNegIdx path extLen)

/-- `.nii` never suffix-matches a path that ends in `.nii.gz`. -/
theorem endsL_niigz_not_nii {l : List Char} (h : endsL l ".nii.gz".data = true) :
    endsL l ".nii".data = false := by
  by_contra hne
  have h1 : endsL l ".nii".data = true := by
    revert hne; cases endsL l ".nii".data <;> simp
  obtain ⟨t, rfl⟩ := endsL_iff.mp h
  have h3 := (of_decide_eq_true h1).2
  have hlen : (t ++ ".nii.gz".data).length = t.length + 7 := by simp
  rw [hlen] at h3
  have hlen4 : (".nii".data.length) = 4 := rfl
  rw [hlen4] at h3
  have harith : t.length + 7 - 4 = t.length + 3 := by omega
  rw [harith, ← List.drop_drop, List.drop_left] at h3
  simp at h3

example : nifti_splitext "img.nii.gz" none = ("img", ".nii.gz") := by decide

example : nifti_splitext "img.nii" none = ("img", ".nii") := by decide

example : nifti_splitext "img.txt" none = ("img.txt", "") := by decide

example : nifti_splitext "img.nii.gz" (some ["", ".gz"]) = ("", "img.nii.gz") := by decide

/-- Claim C9: with the default extension list, the extension-splitting helper
returns `.nii.gz` for every path ending in `.nii.gz` (never the shorter
`.nii`), `.nii` for every path ending in `.nii` but not `.nii.gz`, and the
empty extension for every other path. -/
theorem claim_C9_nifti_splitext_suffixes (path : String) :
    (nifti_splitext path none).2 =
      (if endsL path.data ".nii.gz".data then ".nii.gz"
       else if endsL path.data ".nii".data then ".nii" else "") := by
  by_cases h2 : endsL path.data ".nii.gz".data = true
  · have h1 : endsL path.data ".nii".data = false := endsL_niigz_not_nii h2
    obtain ⟨t, ht⟩ := endsL_iff.mp h2
    simp only [nifti_splitext, Option.getD, List.map, h1, h2, if_true]
    have hidx : List.indexOf true [false, true] = 1 := by decide
    simp only [List.any, Bool.false_or, hidx]
    have hlen : (((([".nii", ".nii.gz"] : List String).getD 1 "")).data.length) = 7 := rfl
    simp only [hlen, pySliceFromNegIdx]
    have h7 : (7 : Nat) ≠ 0 := by decide
    simp only [h7, if_false]
    apply string_data_inj
    show (path.data.drop (path.data.length - 7)) = ".nii.gz".data
    exact (of_decide_eq_true h2).2
  · have h2' : endsL path.data ".nii.gz".data = false := by
      revert h2; cases endsL path.data ".nii.gz".data <;> simp
    by_cases h1 : endsL path.data ".nii".data = true
    · simp only [nifti_splitext, Option.getD, List.map, h1, h2', if_false]
      have hidx : List.indexOf true [true, false] = 0 := by decide
      simp only [List.any, Bool.or_false, hidx]
      have hlen : (((([".nii", ".nii.gz"] : List String).getD 0 "")).data.length) = 4 := rfl
      simp only [hlen, pySliceFromNegIdx]
      have h4 : (4 : Nat) ≠ 0 := by decide
      simp only [h4, if_false]
      apply string_data_inj
      show (path.data.drop (path.data.length - 4)) = ".nii".data
      exact (of_decide_eq_true h1).2
    · have h1' : endsL path.data ".nii".data = false := by
        revert h1; cases endsL path.data ".nii".data <;> simp
      simp [nifti_splitext, h1', h2']

/-- Claim C10: the split is lossless for every path and every extension list
(including the default): prefix ++ extension always reassembles the path. -/
theorem claim_C10_nifti_splitext_roundtrip (path : String) (extsArg : Option (List String)) :
    (nifti_splitext path extsArg).1 ++ (nifti_splitext path extsArg).2 = path := by
  rw [nifti_splitext]
  by_cases hA : (((extsArg.getD [".nii", ".nii.gz"]).map
      (fun e => endsL path.data e.data)).any (fun b => b)) = true
  · simp only [hA, not_true, if_false]
    set n := (((extsArg.getD [".nii", ".nii.gz"]).getD
      (((extsArg.getD [".nii", ".nii.gz"]).map
        (fun e => endsL path.data e.data)).indexOf true) "")).data.length with hn
    by_cases h0 : n = 0
    · simp only [pySliceToNegIdx, pySliceFromNegIdx, h0, if_true]
      apply string_data_inj
      simp [string_data_append]
    · simp only [pySliceToNegIdx, pySliceFromNegIdx, h0, if_false]
      apply string_data_inj
      rw [string_data_append]
      show path.data.take (path.data.length - n) ++ path.data.drop (path.data.length - n) =
        path.data
      exact List.take_append_drop _ _
  · simp only [hA, not_false_iff, if_true]
    apply string_data_inj
    simp [string_data_append]

/-! ## Subject directory names

`glob.glob(op.join(dirname, 'subj_*'))` filters the dataset root's entries by
the prefix `subj_` (the pattern starts with a literal, so Python's
hidden-file rule is vacuous), and `int(sd.split('_')[1])` extracts the piece
of the resulting path between the first and second underscore.  For a dataset
directory name free of underscores this is the corresponding piece of the
entry basename, which is how it is modelled here. -/

/-- The entry matches the glob pattern `subj_*`. -/
def isSubjName (e : String) : Bool := startsL "subj_".data e.data

/-- `int(sd.split('_')[1])`: `none` models the `IndexError`/`ValueError`
raised on entries without a parsable numeric fragment. -/
def subjIdOf (e : String) : Option Nat :=
  match (splitCh '_' e.data).get? 1 with
  | none => none
  | some part => pyInt part

theorem isSubjName_subj (ds : List Char) :
    isSubjName (String.mk ("subj_".data ++ ds)) = true := by
  exact (@startsL_iff "subj_".data ("subj_".data ++ ds)).mpr ⟨ds, rfl⟩

theorem subjIdOf_subj_digits (ds : List Char) (hne : ds ≠ [])
    (hd : ∀ c ∈ ds, isDigitCh c = true) :
    subjIdOf (String.mk ("subj_".data ++ ds)) = some (natOfDigits ds) := by
  have hu : '_' ∉ ds := fun hmem => digit_ne_underscore (hd _ hmem) rfl
  have hsubj : ("subj_".data ++ ds) = "subj".data ++ '_' :: ds := rfl
  have hsplit : splitCh '_' ("subj".data ++ '_' :: ds) = "subj".data :: splitCh '_' ds :=
    splitCh_append '_' "subj".data ds (by decide)
  show (match (splitCh '_' ("subj_".data ++ ds)).get? 1 with
        | none => none
        | some part => pyInt part) = some (natOfDigits ds)
  rw [hsubj, hsplit, splitCh_no_sep '_' ds hu]
  show pyInt ds = some (natOfDigits ds)
  simp [pyInt, hne, List.all_eq_true.mpr hd]

/-- A `subj_`-prefixed name determines its parsed subject ID. -/
theorem subjIdOf_target (w : Nat) (i : Nat) :
    subjIdOf ("subj_" ++ String.mk (padTo w (natRepr i))) = some i := by
  have h1 : ("subj_" ++ String.mk (padTo w (natRepr i))).data =
      "subj_".data ++ padTo w (natRepr i) := rfl
  have h2 : subjIdOf (String.mk ("subj_".data ++ padTo w (natRepr i))) =
      some (natOfDigits (padTo w (natRepr i))) :=
    subjIdOf_subj_digits _ (padTo_ne_nil _ _ (natRepr_ne_nil i))
      (padTo_all_digits _ _ (natRepr_all_digits i))
  have h3 : ("subj_" ++ String.mk (padTo w (natRepr i))) =
      String.mk ("subj_".data ++ padTo w (natRepr i)) := string_data_inj h1
  rw [h3, h2, natOfDigits_padTo, natOfDigits_natRepr]

theorem isSubjName_target (w : Nat) (i : Nat) :
    isSubjName ("subj_" ++ String.mk (padTo w (natRepr i))) = true := by
  have h3 : ("subj_" ++ String.mk (padTo w (natRepr i))) =
      String.mk ("subj_".data ++ padTo w (natRepr i)) :=
    string_data_inj rfl
  rw [h3]
  exact isSubjName_subj _

example : subjIdOf "subj_007" = some 7 := by decide

example : subjIdOf "subj_x" = none := by decide

example : isSubjName "subj_10" = true ∧ isSubjName "controls" = false := by decide

/-! ## `rename_subject_dirs`
(`getting_started/03_file_management/.solutions/re_name_subject_directories.py`) -/

/-- `rename_subject_dirs(dirname)` up to its `shutil.move` loop: compute the
list of `(subjdir, newsubjdir)` pairs the loop feeds to `shutil.move`.
`none` models the exceptions raised on an unparsable `subj_*` entry
(`ValueError` from `int`) or an empty `max` argument. -/
def rename_subject_dirs (entries : List String) : Option (List (String × String)) := do
  let subjdirs := entries.filter fun e => isSubjName e
  let subjids ← subjdirs.mapM subjIdOf
  if subjids.isEmpty then
    none
  else
    let ndigits := ceilLog10 (maxList subjids + 1)
    some (subjdirs.zip (subjids.map fun sid =>
      "subj_" ++ String.mk (padTo ndigits (natRepr sid))))

/-- Dataset root state while the move loop runs: the entry names currently in
the root, and the directories that `shutil.move` has relocated *inside* an
existing destination directory (recorded as `(moved dir, destination)`). -/
structure FState where
  root : List String
  nested : List (String × String)
deriving DecidableEq

/-- `shutil.move(src, dst)` on the dataset root: a samefile destination is a
no-op rename onto itself; an existing destination directory absorbs `src` as
`dst/src` (failing if that path exists); otherwise the move is a plain
rename.  A missing `src` is an `os.rename` error (`none`). -/
def shutilMove (st : FState) (src dst : String) : Option FState :=
  if src = dst then
    if src ∈ st.root then some st else none
  else if dst ∈ st.root then
    if src ∈ st.root then
      if (src, dst) ∈ st.nested then none
      else some ⟨st.root.erase src, st.nested ++ [(src, dst)]⟩
    else none
  else if src ∈ st.root then
    some ⟨st.root.erase src ++ [dst], st.nested⟩
  else none

/-- The `for subjdir, newsubjdir in zip(...): shutil.move(...)` loop. -/
def runMoves (moves : List (String × String)) (st : FState) : Option FState :=
  moves.foldlM (fun s p => shutilMove s p.1 p.2) st

/-- The whole of `rename_subject_dirs`, moves included. -/
def renameRun (entries : List String) : Option FState :=
  (rename_subject_dirs entries).bind fun moves => runMoves moves ⟨entries, []⟩

example : rename_subject_dirs ["subj_9", "subj_10", "notes"] =
    some [("subj_9", "subj_09"), ("subj_10", "subj_10")] := by decide

example : renameRun ["subj_9", "subj_10", "notes"] =
    some ⟨["subj_10", "notes", "subj_09"], []⟩ := by decide

example : renameRun ["subj_7", "subj_07"] =
    some ⟨["subj_7"], [("subj_07", "subj_7")]⟩ := by decide

/-! ### List machinery for the move loop -/

theorem mapM_option_spec {α β : Type} (f : α → Option β) :
    ∀ (l : List α) (ys : List β), l.mapM f = some ys →
      ys.length = l.length ∧
      ∀ k (hk : k < l.length) (hk2 : k < ys.length),
        f (l.get ⟨k, hk⟩) = some (ys.get ⟨k, hk2⟩) := by
  intro l
  induction l with
  | nil =>
    intro ys h
    rw [List.mapM_nil] at h
    have hys : ys = [] := by
      have : ([] : List β) = ys := by exact Option.some.inj h
      exact this.symm
    subst hys
    exact ⟨rfl, fun k hk _ => absurd hk (by simp)⟩
  | cons a t ih =>
    intro ys h
    rw [List.mapM_cons] at h
    cases hfa : f a with
    | none => rw [hfa] at h; simp at h
    | some b =>
      rw [hfa] at h
      cases hmt : t.mapM f with
      | none => rw [hmt] at h; simp at h
      | some bs =>
        rw [hmt] at h
        have hys : ys = b :: bs := by
          have h' : some (b :: bs) = some ys := h
          exact (Option.some.inj h').symm
        subst hys
        obtain ⟨hlen, hget⟩ := ih bs hmt
        refine ⟨by simp [hlen], ?_⟩
        intro k hk hk2
        match k with
        | 0 => simpa using hfa
        | k + 1 =>
          have hk' : k < t.length := by simpa using hk
          have hk2' : k < bs.length := by simpa using hk2
          simpa using hget k hk' hk2'

theorem mem_zip_getIdx {α β : Type} {l₁ : List α} {l₂ : List β} {p : α × β}
    (h : p ∈ l₁.zip l₂) :
    ∃ k, ∃ (h1 : k < l₁.length) (h2 : k < l₂.length),
      p = (l₁.get ⟨k, h1⟩, l₂.get ⟨k, h2⟩) := by
  induction l₁ generalizing l₂ with
  | nil => simp at h
  | cons a t ih =>
    cases l₂ with
    | nil => simp at h
    | cons b t₂ =>
      rw [List.zip_cons_cons] at h
      rcases List.mem_cons.mp h with rfl | h
      · exact ⟨0, by simp, by simp, rfl⟩
      · obtain ⟨k, h1, h2, rfl⟩ := ih h
        exact ⟨k + 1, by simpa using Nat.succ_lt_succ h1,
          by simpa using Nat.succ_lt_succ h2, rfl⟩

theorem zip_get_mem {α β : Type} {l₁ : List α} {l₂ : List β} (k : Nat)
    (h1 : k < l₁.length) (h2 : k < l₂.length) :
    (l₁.get ⟨k, h1⟩, l₂.get ⟨k, h2⟩) ∈ l₁.zip l₂ := by
  induction l₁ generalizing l₂ k with
  | nil => simp at h1
  | cons a t ih =>
    cases l₂ with
    | nil => simp at h2
    | cons b t₂ =>
      rw [List.zip_cons_cons]
      match k with
      | 0 => exact List.mem_cons_self _ _
      | k + 1 =>
        exact List.mem_cons_of_mem _ (ih k (by simpa using h1) (by simpa using h2))

theorem erase_append_singleton {α : Type} [DecidableEq α] {b c : α} (l : List α)
    (hbc : b ≠ c) : (l ++ [c]).erase b = l.erase b ++ [c] := by
  by_cases hb : b ∈ l
  · exact List.erase_append_left _ hb
  · rw [List.erase_of_not_mem hb, List.erase_of_not_mem (by simp [hb, hbc])]

theorem diff_append_singleton {α : Type} [DecidableEq α] {c : α} :
    ∀ (t l : List α), c ∉ t → (l ++ [c]).diff t = l.diff t ++ [c] := by
  intro t
  induction t with
  | nil => intro l _; simp
  | cons b t' ih =>
    intro l hc
    have hbc : b ≠ c := fun h => hc (by simp [h])
    rw [List.diff_cons, List.diff_cons, erase_append_singleton l hbc, ih _ (fun h => hc (by simp [h]))]

theorem diff_cons_left_not_mem {α : Type} [DecidableEq α] {a : α} :
    ∀ (t l : List α), a ∉ t → (a :: l).diff t = a :: l.diff t := by
  intro t
  induction t with
  | nil => intro l _; simp
  | cons b t' ih =>
    intro l ha
    have hba : b ≠ a := fun h => ha (by simp [h])
    rw [List.diff_cons, List.diff_cons, List.erase_cons_tail, ih _ (fun h => ha (by simp [h]))]
    exact fun h => hba ((beq_iff_eq.mp h).symm)

theorem diff_append_self {α : Type} [DecidableEq α] :
    ∀ (A B : List α), (A ++ B).diff A = B := by
  intro A
  induction A with
  | nil => intro B; simp
  | cons a A' ih =>
    intro B
    rw [List.cons_append, List.diff_cons, List.erase_cons_head, ih]

theorem runMoves_nil (st : FState) : runMoves [] st = some st := rfl

theorem runMoves_cons (p : String × String) (ps : List (String × String)) (st : FState) :
    runMoves (p :: ps) st = (shutilMove st p.1 p.2).bind fun s => runMoves ps s := rfl

/-- Moves that rename every directory onto itself leave the state untouched. -/
theorem runMoves_noop : ∀ (ps : List (String × String)) (st : FState),
    (∀ p ∈ ps, p.1 = p.2 ∧ p.1 ∈ st.root) → runMoves ps st = some st := by
  intro ps
  induction ps with
  | nil => intro st _; rfl
  | cons p ps ih =>
    intro st h
    obtain ⟨heq, hmem⟩ := h p (List.mem_cons_self _ _)
    have hmove : shutilMove st p.1 p.2 = some st := by
      simp [shutilMove, heq, heq ▸ hmem]
    rw [runMoves_cons, hmove]
    exact ih st (fun q hq => h q (List.mem_cons_of_mem _ hq))

/-- With distinct sources that are all present, the move loop never raises,
whatever the destinations are: a `shutil.move` onto an existing directory
silently nests its source instead of failing. -/
theorem runMoves_total : ∀ (ps : List (String × String)) (st : FState),
    st.root.Nodup → (ps.map Prod.fst).Nodup →
    (∀ p ∈ ps, p.1 ∈ st.root) →
    (∀ q ∈ st.nested, ∀ p ∈ ps, q.1 ≠ p.1) →
    ∃ st', runMoves ps st = some st' := by
  intro ps
  induction ps with
  | nil => intro st _ _ _ _; exact ⟨st, rfl⟩
  | cons p ps ih =>
    intro st hroot hfst hsrc hnest
    rw [List.map_cons] at hfst
    obtain ⟨hp1nf, hfsttail⟩ := List.nodup_cons.mp hfst
    have hp1 : p.1 ∈ st.root := hsrc p (List.mem_cons_self _ _)
    have hq1ne : ∀ q ∈ ps, q.1 ≠ p.1 := by
      intro q hq hq1
      exact hp1nf (hq1 ▸ List.mem_map_of_mem Prod.fst hq)
    by_cases hdst : p.1 = p.2
    · have hmove : shutilMove st p.1 p.2 = some st := by
        simp [shutilMove, hdst, hdst ▸ hp1]
      obtain ⟨st', h'⟩ := ih st hroot hfsttail
        (fun q hq => hsrc q (List.mem_cons_of_mem _ hq))
        (fun q hq r hr => hnest q hq r (List.mem_cons_of_mem _ hr))
      exact ⟨st', by rw [runMoves_cons, hmove]; exact h'⟩
    · by_cases hmem2 : p.2 ∈ st.root
      · have hnotin : (p.1, p.2) ∉ st.nested :=
          fun hin => hnest _ hin p (List.mem_cons_self _ _) rfl
        have hmove : shutilMove st p.1 p.2 =
            some ⟨st.root.erase p.1, st.nested ++ [(p.1, p.2)]⟩ := by
          simp [shutilMove, hdst, hmem2, hp1, hnotin]
        obtain ⟨st', h'⟩ := ih ⟨st.root.erase p.1, st.nested ++ [(p.1, p.2)]⟩
          (hroot.erase _) hfsttail
          (fun q hq => (List.mem_erase_of_ne (hq1ne q hq)).mpr
            (hsrc q (List.mem_cons_of_mem _ hq)))
          (by
            intro q hq r hr
            rcases List.mem_append.mp hq with hq | hq
            · exact hnest q hq r (List.mem_cons_of_mem _ hr)
            · have : q = (p.1, p.2) := by simpa using hq
              subst this
              exact (hq1ne r hr).symm)
        exact ⟨st', by rw [runMoves_cons, hmove]; exact h'⟩
      · have hmove : shutilMove st p.1 p.2 =
            some ⟨st.root.erase p.1 ++ [p.2], st.nested⟩ := by
          simp [shutilMove, hdst, hmem2, hp1]
        obtain ⟨st', h'⟩ := ih ⟨st.root.erase p.1 ++ [p.2], st.nested⟩
          (by
            rw [List.nodup_append]
            refine ⟨hroot.erase _, by simp, ?_⟩
            intro a ha hb
            have : a = p.2 := by simpa using hb
            subst this
            exact hmem2 (List.mem_of_mem_erase ha))
          hfsttail
          (fun q hq => List.mem_append_left _
            ((List.mem_erase_of_ne (hq1ne q hq)).mpr
              (hsrc q (List.mem_cons_of_mem _ hq))))
          (fun q hq r hr => hnest q hq r (List.mem_cons_of_mem _ hr))
        exact ⟨st', by rw [runMoves_cons, hmove]; exact h'⟩

/-- When additionally every destination is either its own source or a fresh
name not yet in the root and not reused, the loop succeeds with no nesting and
the final root is the old root with sources replaced by destinations. -/
theorem runMoves_rename_ok : ∀ (ps : List (String × String)) (root : List String),
    root.Nodup → (ps.map Prod.fst).Nodup →
    (∀ p ∈ ps, p.1 ∈ root) →
    (∀ p ∈ ps, p.2 = p.1 ∨ (p.2 ∉ root ∧ ∀ q ∈ ps, q.2 = p.2 → q = p)) →
    ∃ st : FState, runMoves ps ⟨root, []⟩ = some st ∧ st.nested = [] ∧
      st.root.Perm (root.diff (ps.map Prod.fst) ++ ps.map Prod.snd) := by
  intro ps
  induction ps with
  | nil => intro root _ _ _ _; exact ⟨⟨root, []⟩, rfl, rfl, by simp⟩
  | cons p ps ih =>
    intro root hroot hfst hsrc hd
    rw [List.map_cons] at hfst
    obtain ⟨hp1nf, hfsttail⟩ := List.nodup_cons.mp hfst
    have hp1 : p.1 ∈ root := hsrc p (List.mem_cons_self _ _)
    have hq1ne : ∀ q ∈ ps, q.1 ≠ p.1 := by
      intro q hq hq1
      exact hp1nf (hq1 ▸ List.mem_map_of_mem Prod.fst hq)
    have hdtail : ∀ q ∈ ps, q.2 = q.1 ∨
        (q.2 ∉ root ∧ ∀ r ∈ ps, r.2 = q.2 → r = q) := by
      intro q hq
      rcases hd q (List.mem_cons_of_mem _ hq) with h | ⟨h1, h2⟩
      · exact Or.inl h
      · exact Or.inr ⟨h1, fun r hr => h2 r (List.mem_cons_of_mem _ hr)⟩
    rcases hd p (List.mem_cons_self _ _) with heq | ⟨hnotin, hinj⟩
    · -- destination equals source: `shutil.move` renames onto itself, a no-op
      have hmove : shutilMove ⟨root, []⟩ p.1 p.2 = some ⟨root, []⟩ := by
        simp [shutilMove, heq, hp1]
      obtain ⟨st, hrun, hnest, hperm⟩ := ih root hroot hfsttail
        (fun q hq => hsrc q (List.mem_cons_of_mem _ hq)) hdtail
      refine ⟨st, by rw [runMoves_cons, hmove]; exact hrun, hnest, ?_⟩
      simp only [List.map_cons, List.diff_cons]
      rw [heq]
      have h1 : List.Perm (root.diff (ps.map Prod.fst))
          (p.1 :: (root.erase p.1).diff (ps.map Prod.fst)) := by
        have hp : List.Perm root (p.1 :: root.erase p.1) := List.perm_cons_erase hp1
        have := List.Perm.diff_right (ps.map Prod.fst) hp
        rwa [diff_cons_left_not_mem _ _ hp1nf] at this
      refine hperm.trans ?_
      refine (List.Perm.append_right _ h1).trans ?_
      exact List.perm_middle.symm
    · -- fresh destination: a plain rename
      have hne12 : p.1 ≠ p.2 := fun h => hnotin (h ▸ hp1)
      have hmove : shutilMove ⟨root, []⟩ p.1 p.2 =
          some ⟨root.erase p.1 ++ [p.2], []⟩ := by
        simp [shutilMove, hne12, hnotin, hp1]
      have hp2fst : p.2 ∉ ps.map Prod.fst := by
        intro hmem
        obtain ⟨q, hq, hq1⟩ := List.mem_map.mp hmem
        exact hnotin (hq1 ▸ hsrc q (List.mem_cons_of_mem _ hq))
      have hroot' : (root.erase p.1 ++ [p.2]).Nodup := by
        rw [List.nodup_append]
        refine ⟨hroot.erase _, by simp, ?_⟩
        intro a ha hb
        have : a = p.2 := by simpa using hb
        subst this
        exact hnotin (List.mem_of_mem_erase ha)
      have hsrc' : ∀ q ∈ ps, q.1 ∈ root.erase p.1 ++ [p.2] := fun q hq =>
        List.mem_append_left _ ((List.mem_erase_of_ne (hq1ne q hq)).mpr
          (hsrc q (List.mem_cons_of_mem _ hq)))
      have hd' : ∀ q ∈ ps, q.2 = q.1 ∨
          (q.2 ∉ root.erase p.1 ++ [p.2] ∧ ∀ r ∈ ps, r.2 = q.2 → r = q) := by
        intro q hq
        rcases hdtail q hq with h | ⟨h1, h2⟩
        · exact Or.inl h
        · refine Or.inr ⟨?_, h2⟩
          intro hmem
          rcases List.mem_append.mp hmem with hmem | hmem
          · exact h1 (List.mem_of_mem_erase hmem)
          · have hq2 : q.2 = p.2 := by simpa using hmem
            have hqp : q = p := hinj q (List.mem_cons_of_mem _ hq) hq2
            have hps : p ∈ ps := hqp ▸ hq
            exact hp1nf (List.mem_map_of_mem Prod.fst hps)
      obtain ⟨st, hrun, hnest, hperm⟩ := ih (root.erase p.1 ++ [p.2]) hroot' hfsttail hsrc' hd'
      refine ⟨st, by rw [runMoves_cons, hmove]; exact hrun, hnest, ?_⟩
      simp only [List.map_cons, List.diff_cons]
      have hdiffeq : (root.erase p.1 ++ [p.2]).diff (ps.map Prod.fst) =
          (root.erase p.1).diff (ps.map Prod.fst) ++ [p.2] :=
        diff_append_singleton _ _ hp2fst
      refine hperm.trans ?_
      rw [hdiffeq, List.append_assoc]
      exact List.Perm.refl _

/-- Unfolding of `rename_subject_dirs` when all subject entries parse and at
least one is present. -/
theorem rename_subject_dirs_eq (entries : List String) (ids : List Nat)
    (hids : (entries.filter fun e => isSubjName e).mapM subjIdOf = some ids)
    (hne : ids ≠ []) :
    rename_subject_dirs entries = some
      ((entries.filter fun e => isSubjName e).zip
        (ids.map fun sid => "subj_" ++ String.mk
          (padTo (ceilLog10 (maxList ids + 1)) (natRepr sid)))) := by
  have hemp : ids.isEmpty = false := by
    cases ids with
    | nil => exact absurd rfl hne
    | cons a t => rfl
  show ((entries.filter fun e => isSubjName e).mapM subjIdOf).bind _ = _
  rw [hids]
  show (if ids.isEmpty then none else _) = _
  rw [hemp]
  rfl

/-- The width the code computes (`ceilLog10 (max+1)`, which is `0` when the
maximum ID is `0`) pads every occurring ID to exactly the same string as the
spec's width (`max 1 (ceilLog10 (max+1))`). -/
theorem padTo_width_claim (ids : List Nat) (i : Nat) (hi : i ∈ ids) :
    padTo (ceilLog10 (maxList ids + 1)) (natRepr i) =
      padTo (max 1 (ceilLog10 (maxList ids + 1))) (natRepr i) := by
  rcases Nat.eq_zero_or_pos (maxList ids) with h0 | hpos
  · have hi0 : i = 0 := maxList_eq_zero hi h0
    subst hi0
    rw [h0]
    have hc : ceilLog10 (0 + 1) = 0 := by decide
    rw [hc]
    rw [padTo_small 0 0 (by omega) (by omega), padTo_small (max 1 0) 0 (by omega) (by omega)]
  · have h2 : 2 ≤ maxList ids + 1 := by omega
    rw [Nat.max_eq_right (ceilLog10_pos h2)]

/-- Removing the entries selected by a filter leaves the rejected ones. -/
theorem diff_filter_perm (p : String → Bool) (l : List String) :
    List.Perm (l.diff (l.filter p)) (l.filter fun e => !(p e)) := by
  have hsplit : List.Perm (l.filter p ++ l.filter fun e => !(p e)) l :=
    List.filter_append_perm p l
  have h1 : List.Perm (l.diff (l.filter p))
      ((l.filter p ++ l.filter fun e => !(p e)).diff (l.filter p)) :=
    List.Perm.diff_right _ hsplit.symm
  rwa [diff_append_self] at h1

/-- Claim C1: for a dataset root whose `subj_*` entries parse to distinct
subject IDs (at least one present), the Renamer computes the pad width
`w = ceil(log10(max_id + 1))` with a minimum of 1 — the code's
`int(np.ceil(np.log10(max + 1)))` omits the clamp but produces the very same
names, since a width-0 format of the only possible ID 0 is `"0"` — and
renames every subject directory to `subj_<id zero-padded to width w>`:
the move list pairs each subject directory with its padded name, the run
completes with no nesting, and the final root holds exactly the non-subject
entries plus the padded names. -/
theorem claim_C1_renamer_zero_pad (entries : List String) (ids : List Nat)
    (hnd : entries.Nodup)
    (hids : (entries.filter fun e => isSubjName e).mapM subjIdOf = some ids)
    (hne : ids ≠ [])
    (hidnd : ids.Nodup) :
    rename_subject_dirs entries = some
      ((entries.filter fun e => isSubjName e).zip
        (ids.map fun i => "subj_" ++ String.mk
          (padTo (max 1 (ceilLog10 (maxList ids + 1))) (natRepr i)))) ∧
    ∃ st : FState, renameRun entries = some st ∧ st.nested = [] ∧
      st.root.Perm ((entries.filter fun e => !(isSubjName e)) ++
        ids.map fun i => "subj_" ++ String.mk
          (padTo (max 1 (ceilLog10 (maxList ids + 1))) (natRepr i))) := by
  obtain ⟨hlen, hget⟩ := mapM_option_spec subjIdOf (entries.filter fun e => isSubjName e) ids hids
  have heq1 := rename_subject_dirs_eq entries ids hids hne
  have hmapeq : (ids.map fun sid => "subj_" ++ String.mk
        (padTo (ceilLog10 (maxList ids + 1)) (natRepr sid))) =
      (ids.map fun i => "subj_" ++ String.mk
        (padTo (max 1 (ceilLog10 (maxList ids + 1))) (natRepr i))) := by
    apply List.map_congr_left
    intro i hi
    rw [padTo_width_claim ids i hi]
  have hlendst : (ids.map fun sid => "subj_" ++ String.mk
      (padTo (ceilLog10 (maxList ids + 1)) (natRepr sid))).length =
      (entries.filter fun e => isSubjName e).length := by
    rw [List.length_map, hlen]
  have hfst_eq : ((entries.filter fun e => isSubjName e).zip
      (ids.map fun sid => "subj_" ++ String.mk
        (padTo (ceilLog10 (maxList ids + 1)) (natRepr sid)))).map Prod.fst =
      entries.filter fun e => isSubjName e :=
    List.map_fst_zip _ _ (le_of_eq hlendst.symm)
  have hsnd_eq : ((entries.filter fun e => isSubjName e).zip
      (ids.map fun sid => "subj_" ++ String.mk
        (padTo (ceilLog10 (maxList ids + 1)) (natRepr sid)))).map Prod.snd =
      ids.map fun sid => "subj_" ++ String.mk
        (padTo (ceilLog10 (maxList ids + 1)) (natRepr sid)) :=
    List.map_snd_zip _ _ (le_of_eq hlendst)
  refine ⟨by rw [heq1, hmapeq], ?_⟩
  have hrunok := runMoves_rename_ok
    ((entries.filter fun e => isSubjName e).zip
      (ids.map fun sid => "subj_" ++ String.mk
        (padTo (ceilLog10 (maxList ids + 1)) (natRepr sid)))) entries hnd
    (by rw [hfst_eq]; exact hnd.filter _)
    (by
      intro p hp
      obtain ⟨k, hk1, hk2, rfl⟩ := mem_zip_getIdx hp
      exact List.mem_of_mem_filter (List.get_mem _ _ _))
    (by
      intro p hp
      obtain ⟨k, hk1, hk2, rfl⟩ := mem_zip_getIdx hp
      have hkid : k < ids.length := by
        have := hk2
        rwa [List.length_map] at this
      have hdval : (ids.map fun sid => "subj_" ++ String.mk
          (padTo (ceilLog10 (maxList ids + 1)) (natRepr sid))).get ⟨k, hk2⟩ =
          "subj_" ++ String.mk
            (padTo (ceilLog10 (maxList ids + 1)) (natRepr (ids.get ⟨k, hkid⟩))) :=
        List.get_map _
      by_cases hds : (ids.map fun sid => "subj_" ++ String.mk
          (padTo (ceilLog10 (maxList ids + 1)) (natRepr sid))).get ⟨k, hk2⟩ =
          (entries.filter fun e => isSubjName e).get ⟨k, hk1⟩
      · exact Or.inl hds
      · refine Or.inr ⟨?_, ?_⟩
        · -- the padded target is not an existing entry
          intro hmem
          have hsubj : isSubjName ((ids.map fun sid => "subj_" ++ String.mk
              (padTo (ceilLog10 (maxList ids + 1)) (natRepr sid))).get ⟨k, hk2⟩) = true := by
            rw [hdval]; exact isSubjName_target _ _
          have hmemf : (ids.map fun sid => "subj_" ++ String.mk
              (padTo (ceilLog10 (maxList ids + 1)) (natRepr sid))).get ⟨k, hk2⟩ ∈
              entries.filter fun e => isSubjName e :=
            List.mem_filter.mpr ⟨hmem, hsubj⟩
          obtain ⟨⟨j, hj⟩, hjval⟩ := List.mem_iff_get.mp hmemf
          have hjid : j < ids.length := by omega
          have hparse1 : subjIdOf ((entries.filter fun e => isSubjName e).get ⟨j, hj⟩) =
              some (ids.get ⟨j, hjid⟩) := hget j hj hjid
          have hparse2 : subjIdOf ((ids.map fun sid => "subj_" ++ String.mk
              (padTo (ceilLog10 (maxList ids + 1)) (natRepr sid))).get ⟨k, hk2⟩) =
              some (ids.get ⟨k, hkid⟩) := by
            rw [hdval]; exact subjIdOf_target _ _
          rw [hjval] at hparse1
          rw [hparse2] at hparse1
          have hideq : ids.get ⟨k, hkid⟩ = ids.get ⟨j, hjid⟩ := Option.some.inj hparse1
          have hkj : (⟨k, hkid⟩ : Fin ids.length) = ⟨j, hjid⟩ :=
            (hidnd.get_inj_iff).mp hideq
          have hkj' : k = j := by
            have := congrArg Fin.val hkj
            simpa using this
          apply hds
          rw [hjval.symm]
          congr 1
          exact Fin.ext hkj'.symm
        · -- padded targets are distinct across distinct rows
          intro q hq hq2
          obtain ⟨k', hk1', hk2', rfl⟩ := mem_zip_getIdx hq
          have hkid' : k' < ids.length := by
            have := hk2'
            rwa [List.length_map] at this
          have hdval' : (ids.map fun sid => "subj_" ++ String.mk
              (padTo (ceilLog10 (maxList ids + 1)) (natRepr sid))).get ⟨k', hk2'⟩ =
              "subj_" ++ String.mk
                (padTo (ceilLog10 (maxList ids + 1)) (natRepr (ids.get ⟨k', hkid'⟩))) :=
            List.get_map _
          have hparse1 : subjIdOf ((ids.map fun sid => "subj_" ++ String.mk
              (padTo (ceilLog10 (maxList ids + 1)) (natRepr sid))).get ⟨k', hk2'⟩) =
              some (ids.get ⟨k', hkid'⟩) := by
            rw [hdval']; exact subjIdOf_target _ _
          have hparse2 : subjIdOf ((ids.map fun sid => "subj_" ++ String.mk
              (padTo (ceilLog10 (maxList ids + 1)) (natRepr sid))).get ⟨k, hk2⟩) =
              some (ids.get ⟨k, hkid⟩) := by
            rw [hdval]; exact subjIdOf_target _ _
          have hq2' : (ids.map fun sid => "subj_" ++ String.mk
              (padTo (ceilLog10 (maxList ids + 1)) (natRepr sid))).get ⟨k', hk2'⟩ =
              (ids.map fun sid => "subj_" ++ String.mk
                (padTo (ceilLog10 (maxList ids + 1)) (natRepr sid))).get ⟨k, hk2⟩ := hq2
          rw [hq2', hparse2] at hparse1
          have hideq : ids.get ⟨k', hkid'⟩ = ids.get ⟨k, hkid⟩ :=
            (Option.some.inj hparse1).symm
          have hkj : (⟨k', hkid'⟩ : Fin ids.length) = ⟨k, hkid⟩ :=
            (hidnd.get_inj_iff).mp hideq
          have hkk : k' = k := by
            have := congrArg Fin.val hkj
            simpa using this
          subst hkk
          rfl)
  obtain ⟨st, hrun, hnest, hperm⟩ := hrunok
  refine ⟨st, ?_, hnest, ?_⟩
  · rw [renameRun, heq1]
    exact hrun
  · rw [hfst_eq, hsnd_eq] at hperm
    refine hperm.trans ?_
    rw [hmapeq]
    apply List.Perm.append_right
    exact diff_filter_perm _ entries

/-- Witness for claim C1 at the concrete root `{subj_9, subj_10, notes}`
(maximum ID 10, width 2). -/
theorem claim_C1_renamer_zero_pad_witness :
    ((["subj_9", "subj_10", "notes"] : List String).Nodup ∧
      ((["subj_9", "subj_10", "notes"] : List String).filter fun e =>
        isSubjName e).mapM subjIdOf = some [9, 10] ∧
      ([9, 10] : List Nat) ≠ [] ∧ ([9, 10] : List Nat).Nodup) ∧
    (rename_subject_dirs ["subj_9", "subj_10", "notes"] = some
      (((["subj_9", "subj_10", "notes"] : List String).filter fun e => isSubjName e).zip
        (([9, 10] : List Nat).map fun i => "subj_" ++ String.mk
          (padTo (max 1 (ceilLog10 (maxList [9, 10] + 1))) (natRepr i)))) ∧
      ∃ st : FState, renameRun ["subj_9", "subj_10", "notes"] = some st ∧ st.nested = [] ∧
        st.root.Perm (((["subj_9", "subj_10", "notes"] : List String).filter fun e =>
            !(isSubjName e)) ++
          ([9, 10] : List Nat).map fun i => "subj_" ++ String.mk
            (padTo (max 1 (ceilLog10 (maxList [9, 10] + 1))) (natRepr i)))) :=
  ⟨⟨by decide, by decide, by decide, by decide⟩,
    claim_C1_renamer_zero_pad ["subj_9", "subj_10", "notes"] [9, 10]
      (by decide) (by decide) (by decide) (by decide)⟩

/-- Claim C3: on a root whose subject directories already carry the computed
zero padding, every move the Renamer performs is a rename onto itself, so
the run succeeds and leaves the root exactly as it was, with nothing nested
elsewhere. -/
theorem claim_C3_renamer_idempotent (entries : List String) (ids : List Nat)
    (hids : (entries.filter fun e => isSubjName e).mapM subjIdOf = some ids)
    (hne : ids ≠ [])
    (hpad : ∀ p ∈ (entries.filter fun e => isSubjName e).zip ids,
      p.1 = "subj_" ++ String.mk (padTo (ceilLog10 (maxList ids + 1)) (natRepr p.2))) :
    renameRun entries = some ⟨entries, []⟩ := by
  have heq1 := rename_subject_dirs_eq entries ids hids hne
  rw [renameRun, heq1]
  show runMoves _ ⟨entries, []⟩ = _
  apply runMoves_noop
  intro p hp
  obtain ⟨k, hk1, hk2, rfl⟩ := mem_zip_getIdx hp
  have hkid : k < ids.length := by rwa [List.length_map] at hk2
  have hdval : (ids.map fun sid => "subj_" ++ String.mk
      (padTo (ceilLog10 (maxList ids + 1)) (natRepr sid))).get ⟨k, hk2⟩ =
      "subj_" ++ String.mk
        (padTo (ceilLog10 (maxList ids + 1)) (natRepr (ids.get ⟨k, hkid⟩))) :=
    List.get_map _
  have hmem : ((entries.filter fun e => isSubjName e).get ⟨k, hk1⟩,
      ids.get ⟨k, hkid⟩) ∈ (entries.filter fun e => isSubjName e).zip ids :=
    zip_get_mem k hk1 hkid
  have hp1 := hpad _ hmem
  constructor
  · rw [hdval]
    exact hp1
  · exact List.mem_of_mem_filter (List.get_mem _ _ _)

/-- Witness for claim C3 at the already-padded root `{subj_07, subj_13}`
(width 2): a second run is an errorless no-op. -/
theorem claim_C3_renamer_idempotent_witness :
    (((["subj_07", "subj_13"] : List String).filter fun e =>
        isSubjName e).mapM subjIdOf = some [7, 13] ∧
      ([7, 13] : List Nat) ≠ [] ∧
      ∀ p ∈ ((["subj_07", "subj_13"] : List String).filter fun e =>
          isSubjName e).zip ([7, 13] : List Nat),
        p.1 = "subj_" ++ String.mk (padTo (ceilLog10 (maxList [7, 13] + 1)) (natRepr p.2))) ∧
    renameRun ["subj_07", "subj_13"] = some ⟨["subj_07", "subj_13"], []⟩ :=
  ⟨⟨by decide, by decide, by decide⟩,
    claim_C3_renamer_idempotent ["subj_07", "subj_13"] [7, 13]
      (by decide) (by decide) (by decide)⟩

/-- Counterexample to claim C2: on the root `{subj_7, subj_07}` the two
distinct directories both map to the padded name `subj_7`, yet the Renamer
raises no `NameCollision` (no such failure exists in the code): the move list
is computed, the run completes, and `shutil.move` silently relocates
`subj_07` *inside* the surviving directory `subj_7`. -/
theorem claim_C2_counterexample :
    rename_subject_dirs ["subj_7", "subj_07"] =
      some [("subj_7", "subj_7"), ("subj_07", "subj_7")] ∧
    renameRun ["subj_7", "subj_07"] =
      some ⟨["subj_7"], [("subj_07", "subj_7")]⟩ := by decide

/-- Claim C2 as amended: when two distinct subject directories map to the
same padded target name (equivalently, two entries parse to the same ID —
`ids` is not duplicate-free), the Renamer performs no collision validation
and does not fail: the whole run still completes without error (the extra
directory is silently nested inside the target, as the counterexample
records). -/
theorem claim_C2_amended_no_collision_failure (entries : List String) (ids : List Nat)
    (hnd : entries.Nodup)
    (hids : (entries.filter fun e => isSubjName e).mapM subjIdOf = some ids)
    (hne : ids ≠ [])
    (hdup : ¬ ids.Nodup) :
    ∃ st : FState, renameRun entries = some st := by
  obtain ⟨hlen, hget⟩ := mapM_option_spec subjIdOf (entries.filter fun e => isSubjName e) ids hids
  have heq1 := rename_subject_dirs_eq entries ids hids hne
  rw [renameRun, heq1]
  show ∃ st, runMoves _ ⟨entries, []⟩ = some st
  have hlendst : (ids.map fun sid => "subj_" ++ String.mk
      (padTo (ceilLog10 (maxList ids + 1)) (natRepr sid))).length =
      (entries.filter fun e => isSubjName e).length := by
    rw [List.length_map, hlen]
  have hfst_eq : ((entries.filter fun e => isSubjName e).zip
      (ids.map fun sid => "subj_" ++ String.mk
        (padTo (ceilLog10 (maxList ids + 1)) (natRepr sid)))).map Prod.fst =
      entries.filter fun e => isSubjName e :=
    List.map_fst_zip _ _ (le_of_eq hlendst.symm)
  apply runMoves_total
  · exact hnd
  · rw [hfst_eq]; exact hnd.filter _
  · intro p hp
    obtain ⟨k, hk1, hk2, rfl⟩ := mem_zip_getIdx hp
    exact List.mem_of_mem_filter (List.get_mem _ _ _)
  · intro q hq
    simp at hq

/-- Witness for the amended claim C2 at the colliding root `{subj_7, subj_07}`. -/
theorem claim_C2_amended_no_collision_failure_witness :
    ((["subj_7", "subj_07"] : List String).Nodup ∧
      ((["subj_7", "subj_07"] : List String).filter fun e =>
        isSubjName e).mapM subjIdOf = some [7, 7] ∧
      ([7, 7] : List Nat) ≠ [] ∧ ¬ ([7, 7] : List Nat).Nodup) ∧
    ∃ st : FState, renameRun ["subj_7", "subj_07"] = some st :=
  ⟨⟨by decide, by decide, by decide, by decide⟩,
    claim_C2_amended_no_collision_failure ["subj_7", "subj_07"] [7, 7]
      (by decide) (by decide) (by decide) (by decide)⟩

/-! ## `rename_subject_files`
(`getting_started/file_management/.solutions/re_name_subject_files.py`) -/

/-- Python's `glob` skips entries whose name begins with a dot when the
pattern does not. -/
def pyGlobHidden (f : String) : Bool := startsL ['.'] f.data

/-- A file matched by `glob.glob(op.join(subjdir, '*' + ext))`: suffix match
on a non-hidden name. -/
def globExtMatch (ext f : String) : Bool := !(pyGlobHidden f) && endsL f.data ext.data

/-- A file matched by either of the two globs `*.nii` and `*.nii.gz`. -/
def niiGlobMatch (f : String) : Bool := globExtMatch ".nii" f || globExtMatch ".nii.gz" f

/-- `rename_subject_files(subjdir, group)` up to its `os.rename` loop:
the subject ID is the second `'_'`-separated piece of the directory basename
(taken verbatim, preserving zero padding), the image list is the
concatenation of the `*.nii` and `*.nii.gz` globs over the directory's
files, and each image `f` is paired with `<group>_subj_<id>_<f>`.
`none` models the `IndexError` on a basename without an underscore. -/
def rename_subject_files (subjdirBase group : String) (files : List String) :
    Option (List (String × String)) :=
  match (splitCh '_' subjdirBase.data).get? 1 with
  | none => none
  | some sid =>
    let subjid : String := String.mk sid
    let imgfiles := (files.filter fun f => globExtMatch ".nii" f) ++
      (files.filter fun f => globExtMatch ".nii.gz" f)
    let newimgfiles := imgfiles.map fun imgf =>
      group ++ "_subj_" ++ subjid ++ "_" ++ imgf
    some (imgfiles.zip newimgfiles)

/-- The `for imgfile, newimgfile in zip(...): os.rename(...)` loop over the
directory's file list (`os.rename` replaces an existing destination). -/
def runRenames (prs : List (String × String)) (files : List String) : List String :=
  prs.foldl (fun fs pr => (fs.erase pr.1).erase pr.2 ++ [pr.2]) files

example : rename_subject_files "subj_007" "controls" ["a.nii", "b.nii.gz", "notes.txt"] =
    some [("a.nii", "controls_subj_007_a.nii"), ("b.nii.gz", "controls_subj_007_b.nii.gz")] := by
  decide

example : runRenames [("a.nii", "controls_subj_007_a.nii"),
    ("b.nii.gz", "controls_subj_007_b.nii.gz")] ["a.nii", "b.nii.gz", "notes.txt"] =
    ["notes.txt", "controls_subj_007_a.nii", "controls_subj_007_b.nii.gz"] := by decide

/-- Extracting the verbatim subject ID from `subj_<sid>` when `<sid>` has no
further underscore. -/
theorem subjid_extract (sid : String) (hsid : '_' ∉ sid.data) :
    (splitCh '_' ("subj_" ++ sid).data).get? 1 = some sid.data := by
  have h1 : ("subj_" ++ sid).data = "subj".data ++ '_' :: sid.data := rfl
  rw [h1, splitCh_append '_' "subj".data sid.data (by decide), splitCh_no_sep '_' sid.data hsid]
  rfl

theorem string_mk_data (s : String) : String.mk s.data = s := string_data_inj rfl

/-- The two glob patterns never match the same file. -/
theorem globExtMatch_not_both (f : String) (h1 : globExtMatch ".nii" f = true)
    (h2 : globExtMatch ".nii.gz" f = true) : False := by
  have e1 : endsL f.data ".nii".data = true := by
    unfold globExtMatch at h1
    simp only [Bool.and_eq_true] at h1
    exact h1.2
  have e2 : endsL f.data ".nii.gz".data = true := by
    unfold globExtMatch at h2
    simp only [Bool.and_eq_true] at h2
    exact h2.2
  rw [endsL_niigz_not_nii e2] at e1
  exact Bool.false_ne_true e1

theorem count_nodup (l : List String) (hnd : l.Nodup) (a : String) :
    l.count a = if a ∈ l then 1 else 0 := by
  by_cases h : a ∈ l
  · rw [if_pos h]
    exact List.count_eq_one_of_mem hnd h
  · rw [if_neg h]
    exact List.count_eq_zero.mpr h

/-- Claim C5: for a subject directory `subj_<sid>` (ID taken verbatim from
the basename, preserving zero padding), the File Renamer pairs every file
that one of the two globs matches with `<group>_subj_<sid>_<basename>`, and
each such file is processed exactly once — the `*.nii` and `*.nii.gz` globs
are disjoint, so no file is renamed twice. -/
theorem claim_C5_file_renamer (group sid : String) (files : List String)
    (hsid : '_' ∉ sid.data) (hnd : files.Nodup) :
    ∃ prs, rename_subject_files ("subj_" ++ sid) group files = some prs ∧
      (∀ pr ∈ prs, pr.2 = group ++ "_subj_" ++ sid ++ "_" ++ pr.1) ∧
      ∀ f : String, (prs.map Prod.fst).count f =
        (if f ∈ files ∧ niiGlobMatch f = true then 1 else 0) := by
  have hdef : rename_subject_files ("subj_" ++ sid) group files = some
      (((files.filter fun f => globExtMatch ".nii" f) ++
        (files.filter fun f => globExtMatch ".nii.gz" f)).zip
       (((files.filter fun f => globExtMatch ".nii" f) ++
        (files.filter fun f => globExtMatch ".nii.gz" f)).map fun imgf =>
          group ++ "_subj_" ++ sid ++ "_" ++ imgf)) := by
    unfold rename_subject_files
    rw [subjid_extract sid hsid]
  refine ⟨_, hdef, ?_, ?_⟩
  · intro pr hpr
    obtain ⟨k, hk1, hk2, rfl⟩ := mem_zip_getIdx hpr
    exact List.get_map _
  · intro f
    rw [List.map_fst_zip _ _ (by simp)]
    rw [List.count_append]
    have hnd1 : (files.filter fun f => globExtMatch ".nii" f).Nodup := hnd.filter _
    have hnd2 : (files.filter fun f => globExtMatch ".nii.gz" f).Nodup := hnd.filter _
    rw [count_nodup _ hnd1 f, count_nodup _ hnd2 f]
    by_cases hf : f ∈ files
    · by_cases h1 : globExtMatch ".nii" f = true
      · have h2 : ¬ globExtMatch ".nii.gz" f = true := fun h2 => globExtMatch_not_both f h1 h2
        have hm : niiGlobMatch f = true := by simp [niiGlobMatch, h1]
        simp [List.mem_filter, hf, h1, h2, hm]
      · by_cases h2 : globExtMatch ".nii.gz" f = true
        · have hm : niiGlobMatch f = true := by simp [niiGlobMatch, h2]
          simp [List.mem_filter, hf, h1, h2, hm]
        · have hm : ¬ niiGlobMatch f = true := by
            simp [niiGlobMatch, Bool.or_eq_true]
            exact ⟨by simpa using h1, by simpa using h2⟩
          simp [List.mem_filter, hf, h1, h2, hm]
    · simp [List.mem_filter, hf]

/-- Witness for claim C5 at the spec's example: directory `subj_007`, group
`controls`, files `{a.nii, b.nii.gz, notes.txt}`. -/
theorem claim_C5_file_renamer_witness :
    ('_' ∉ ("007" : String).data ∧ (["a.nii", "b.nii.gz", "notes.txt"] : List String).Nodup) ∧
    (∃ prs, rename_subject_files ("subj_" ++ "007") "controls"
        ["a.nii", "b.nii.gz", "notes.txt"] = some prs ∧
      (∀ pr ∈ prs, pr.2 = "controls" ++ "_subj_" ++ "007" ++ "_" ++ pr.1) ∧
      ∀ f : String, (prs.map Prod.fst).count f =
        (if f ∈ (["a.nii", "b.nii.gz", "notes.txt"] : List String) ∧
          niiGlobMatch f = true then 1 else 0)) :=
  ⟨⟨by decide, by decide⟩,
    claim_C5_file_renamer "controls" "007" ["a.nii", "b.nii.gz", "notes.txt"]
      (by decide) (by decide)⟩

/-! ### Non-idempotence of the file renamer -/

theorem pref_inj (group sid : String) {a b : String}
    (h : group ++ "_subj_" ++ sid ++ "_" ++ a = group ++ "_subj_" ++ sid ++ "_" ++ b) :
    a = b := by
  have hd : (group ++ "_subj_" ++ sid ++ "_").data ++ a.data =
      (group ++ "_subj_" ++ sid ++ "_").data ++ b.data := by
    have := congrArg String.data h
    simpa [string_data_append, List.append_assoc] using this
  exact string_data_inj (List.append_cancel_left hd)

theorem startsL_dot_append (g r : List Char) (hg : startsL ['.'] g = false)
    (hr : startsL ['.'] r = false) : startsL ['.'] (g ++ r) = false := by
  cases g with
  | nil => simpa using hr
  | cons c t =>
    unfold startsL at hg ⊢
    simp only [List.length_singleton, List.take_succ_cons, List.take_zero,
      List.cons_append] at hg ⊢
    exact hg

theorem prefixed_not_hidden (group sid x : String) (hg : pyGlobHidden group = false) :
    pyGlobHidden (group ++ "_subj_" ++ sid ++ "_" ++ x) = false := by
  have hdata : (group ++ "_subj_" ++ sid ++ "_" ++ x).data =
      group.data ++ ("_subj_".data ++ (sid.data ++ ("_".data ++ x.data))) := by
    simp [string_data_append, List.append_assoc]
  unfold pyGlobHidden
  rw [hdata]
  apply startsL_dot_append _ _ hg
  show startsL ['.'] ('_' :: ("subj_".data ++ (sid.data ++ ("_".data ++ x.data)))) = false
  unfold startsL
  apply decide_eq_false
  intro hcon
  simp only [List.length_singleton, List.take_succ_cons, List.take_zero] at hcon
  have : '_' = '.' := by injection hcon
  exact absurd this (by decide)

theorem globExtMatch_prefixed (ext group sid x : String)
    (hg : pyGlobHidden group = false) (hm : globExtMatch ext x = true) :
    globExtMatch ext (group ++ "_subj_" ++ sid ++ "_" ++ x) = true := by
  unfold globExtMatch at hm ⊢
  simp only [Bool.and_eq_true] at hm ⊢
  refine ⟨?_, ?_⟩
  · rw [prefixed_not_hidden group sid x hg]
    decide
  · obtain ⟨t, ht⟩ := endsL_iff.mp hm.2
    apply endsL_iff.mpr
    refine ⟨(group ++ "_subj_" ++ sid ++ "_").data ++ t, ?_⟩
    rw [show (group ++ "_subj_" ++ sid ++ "_" ++ x).data =
      (group ++ "_subj_" ++ sid ++ "_").data ++ x.data from rfl, ht, List.append_assoc]

theorem niiGlobMatch_prefixed (group sid x : String)
    (hg : pyGlobHidden group = false) (hm : niiGlobMatch x = true) :
    niiGlobMatch (group ++ "_subj_" ++ sid ++ "_" ++ x) = true := by
  unfold niiGlobMatch at hm ⊢
  rcases Bool.or_eq_true_iff.mp hm with h | h
  · rw [globExtMatch_prefixed _ group sid x hg h]; rfl
  · rw [globExtMatch_prefixed _ group sid x hg h]; simp

/-- The rename loop on matched files `ms`, all present, with fresh injective
new names, replaces each `m` by its new name. -/
theorem runRenames_fresh (pref : String → String)
    (hinj : ∀ a b, pref a = pref b → a = b) :
    ∀ (ms files : List String), ms.Nodup → (∀ m ∈ ms, m ∈ files) →
      (∀ m ∈ ms, pref m ∉ files) →
      runRenames (ms.zip (ms.map pref)) files = files.diff ms ++ ms.map pref := by
  intro ms
  induction ms with
  | nil => intro files _ _ _; simp [runRenames]
  | cons m ms' ih =>
    intro files hnd hmem hfresh
    obtain ⟨hm1, hndtail⟩ := List.nodup_cons.mp hnd
    have hmf : m ∈ files := hmem m (List.mem_cons_self _ _)
    have hpm : pref m ∉ files := hfresh m (List.mem_cons_self _ _)
    have hstep : runRenames ((m :: ms').zip ((m :: ms').map pref)) files =
        runRenames (ms'.zip (ms'.map pref)) ((files.erase m).erase (pref m) ++ [pref m]) := rfl
    rw [hstep]
    have herase2 : (files.erase m).erase (pref m) = files.erase m :=
      List.erase_of_not_mem (fun hmem2 => hpm (List.mem_of_mem_erase hmem2))
    rw [herase2]
    have hrec := ih (files.erase m ++ [pref m]) hndtail
      (fun x hx => List.mem_append_left _
        ((List.mem_erase_of_ne (fun hxm => hm1 (by rw [← hxm]; exact hx))).mpr
          (hmem x (List.mem_cons_of_mem _ hx))))
      (by
        intro x hx hmem2
        rcases List.mem_append.mp hmem2 with hmem2 | hmem2
        · exact hfresh x (List.mem_cons_of_mem _ hx) (List.mem_of_mem_erase hmem2)
        · have hxeq : pref x = pref m := by simpa using hmem2
          exact hm1 ((hinj x m hxeq) ▸ hx))
    rw [hrec]
    have hpmnotin : pref m ∉ ms' := fun hmem2 =>
      hpm (hmem (pref m) (List.mem_cons_of_mem _ hmem2))
    rw [diff_append_singleton ms' (files.erase m) hpmnotin]
    rw [List.map_cons, List.diff_cons, List.append_assoc]
    rfl

theorem mem_zip_map_self (ms : List String) (g : String → String) {x : String}
    (hx : x ∈ ms) : (x, g x) ∈ ms.zip (ms.map g) := by
  obtain ⟨⟨k, hk⟩, rfl⟩ := List.mem_iff_get.mp hx
  have hk2 : k < (ms.map g).length := by simpa using hk
  have hmem := @zip_get_mem _ _ ms (ms.map g) k hk hk2
  rwa [List.get_map] at hmem

theorem pref_ne (group sid x : String) :
    group ++ "_subj_" ++ sid ++ "_" ++ x ≠ x := by
  intro h
  have hlen := congrArg (fun s : String => s.data.length) h
  simp only [string_data_append, List.length_append] at hlen
  have h6 : ("_subj_" : String).data.length = 6 := rfl
  have h1 : ("_" : String).data.length = 1 := rfl
  rw [h6, h1] at hlen
  omega

/-- Claim C6: the File Renamer is not idempotent.  After one run over a
subject directory, every image file carries the `<group>_subj_<id>_` prefix;
a second run with the same group matches those renamed files again (the
suffix is intact) and pairs each with a doubly-prefixed name, which differs
from the once-prefixed name. -/
theorem claim_C6_file_renamer_not_idempotent (group sid : String) (files : List String)
    (f : String) (prs₁ : List (String × String))
    (hsid : '_' ∉ sid.data)
    (hnd : files.Nodup)
    (hgrp : pyGlobHidden group = false)
    (hfresh : ∀ x ∈ files, (group ++ "_subj_" ++ sid ++ "_" ++ x) ∉ files)
    (hf : f ∈ files) (hm : niiGlobMatch f = true)
    (hrun1 : rename_subject_files ("subj_" ++ sid) group files = some prs₁) :
    ∃ prs₂, rename_subject_files ("subj_" ++ sid) group (runRenames prs₁ files) = some prs₂ ∧
      (group ++ "_subj_" ++ sid ++ "_" ++ f,
        group ++ "_subj_" ++ sid ++ "_" ++ (group ++ "_subj_" ++ sid ++ "_" ++ f)) ∈ prs₂ ∧
      group ++ "_subj_" ++ sid ++ "_" ++ (group ++ "_subj_" ++ sid ++ "_" ++ f) ≠
        group ++ "_subj_" ++ sid ++ "_" ++ f := by
  have hdef : ∀ fs : List String, rename_subject_files ("subj_" ++ sid) group fs = some
      (((fs.filter fun x => globExtMatch ".nii" x) ++
        (fs.filter fun x => globExtMatch ".nii.gz" x)).zip
       (((fs.filter fun x => globExtMatch ".nii" x) ++
        (fs.filter fun x => globExtMatch ".nii.gz" x)).map fun imgf =>
          group ++ "_subj_" ++ sid ++ "_" ++ imgf)) := by
    intro fs
    unfold rename_subject_files
    rw [subjid_extract sid hsid]
  have hprs1 : prs₁ =
      (((files.filter fun x => globExtMatch ".nii" x) ++
        (files.filter fun x => globExtMatch ".nii.gz" x)).zip
       (((files.filter fun x => globExtMatch ".nii" x) ++
        (files.filter fun x => globExtMatch ".nii.gz" x)).map fun imgf =>
          group ++ "_subj_" ++ sid ++ "_" ++ imgf)) := by
    have := hrun1.symm.trans (hdef files)
    exact Option.some.inj this
  have hMnodup : ((files.filter fun x => globExtMatch ".nii" x) ++
      (files.filter fun x => globExtMatch ".nii.gz" x)).Nodup := by
    rw [List.nodup_append]
    refine ⟨hnd.filter _, hnd.filter _, ?_⟩
    intro a ha hb
    exact globExtMatch_not_both a (List.of_mem_filter ha) (List.of_mem_filter hb)
  have hMsub : ∀ m ∈ (files.filter fun x => globExtMatch ".nii" x) ++
      (files.filter fun x => globExtMatch ".nii.gz" x), m ∈ files := by
    intro m hmem
    rcases List.mem_append.mp hmem with h | h
    · exact List.mem_of_mem_filter h
    · exact List.mem_of_mem_filter h
  have hF1 : runRenames prs₁ files =
      files.diff ((files.filter fun x => globExtMatch ".nii" x) ++
        (files.filter fun x => globExtMatch ".nii.gz" x)) ++
      ((files.filter fun x => globExtMatch ".nii" x) ++
        (files.filter fun x => globExtMatch ".nii.gz" x)).map fun imgf =>
          group ++ "_subj_" ++ sid ++ "_" ++ imgf := by
    rw [hprs1]
    exact runRenames_fresh _ (fun a b => pref_inj group sid) _ files hMnodup hMsub
      (fun m hmem => hfresh m (hMsub m hmem))
  have hfM : f ∈ (files.filter fun x => globExtMatch ".nii" x) ++
      (files.filter fun x => globExtMatch ".nii.gz" x) := by
    unfold niiGlobMatch at hm
    rcases Bool.or_eq_true_iff.mp hm with h | h
    · exact List.mem_append_left _ (List.mem_filter.mpr ⟨hf, h⟩)
    · exact List.mem_append_right _ (List.mem_filter.mpr ⟨hf, h⟩)
  have hprefF1 : (group ++ "_subj_" ++ sid ++ "_" ++ f) ∈ runRenames prs₁ files := by
    rw [hF1]
    exact List.mem_append_right _ (List.mem_map_of_mem _ hfM)
  have hprefM2 : (group ++ "_subj_" ++ sid ++ "_" ++ f) ∈
      ((runRenames prs₁ files).filter fun x => globExtMatch ".nii" x) ++
      ((runRenames prs₁ files).filter fun x => globExtMatch ".nii.gz" x) := by
    unfold niiGlobMatch at hm
    rcases Bool.or_eq_true_iff.mp hm with h | h
    · exact List.mem_append_left _ (List.mem_filter.mpr
        ⟨hprefF1, globExtMatch_prefixed _ group sid f hgrp h⟩)
    · exact List.mem_append_right _ (List.mem_filter.mpr
        ⟨hprefF1, globExtMatch_prefixed _ group sid f hgrp h⟩)
  refine ⟨_, hdef (runRenames prs₁ files), ?_, pref_ne group sid _⟩
  exact mem_zip_map_self _ _ hprefM2

/-- Witness for claim C6: after renaming `a.nii` in `subj_007` for group
`controls`, a second run pairs `controls_subj_007_a.nii` with the
double-prefixed `controls_subj_007_controls_subj_007_a.nii`. -/
theorem claim_C6_file_renamer_not_idempotent_witness :
    ('_' ∉ ("007" : String).data ∧ (["a.nii"] : List String).Nodup ∧
      pyGlobHidden "controls" = false ∧
      (∀ x ∈ (["a.nii"] : List String),
        ("controls" ++ "_subj_" ++ "007" ++ "_" ++ x) ∉ (["a.nii"] : List String)) ∧
      "a.nii" ∈ (["a.nii"] : List String) ∧ niiGlobMatch "a.nii" = true ∧
      rename_subject_files ("subj_" ++ "007") "controls" ["a.nii"] =
        some [("a.nii", "controls_subj_007_a.nii")]) ∧
    ∃ prs₂, rename_subject_files ("subj_" ++ "007") "controls"
        (runRenames [("a.nii", "controls_subj_007_a.nii")] ["a.nii"]) = some prs₂ ∧
      ("controls" ++ "_subj_" ++ "007" ++ "_" ++ "a.nii",
        "controls" ++ "_subj_" ++ "007" ++ "_" ++
          ("controls" ++ "_subj_" ++ "007" ++ "_" ++ "a.nii")) ∈ prs₂ ∧
      "controls" ++ "_subj_" ++ "007" ++ "_" ++
          ("controls" ++ "_subj_" ++ "007" ++ "_" ++ "a.nii") ≠
        "controls" ++ "_subj_" ++ "007" ++ "_" ++ "a.nii" :=
  ⟨⟨by decide, by decide, by decide, by decide, by decide, by decide, by decide⟩,
    claim_C6_file_renamer_not_idempotent "controls" "007" ["a.nii"] "a.nii"
      [("a.nii", "controls_subj_007_a.nii")]
      (by decide) (by decide) (by decide) (by decide) (by decide) (by decide) (by decide)⟩

/-! ## `get_image`
(`getting_started/file_management/.solutions/write_a_function_to_return_a_specific_image_file.py`) -/

/-- A subject directory: basename and contained file names. -/
structure SubjDir where
  name : String
  files : List String
deriving DecidableEq

/-- A group directory: basename and contained subject directories. -/
structure GroupDir where
  name : String
  subjs : List SubjDir
deriving DecidableEq

/-- `op.join` for two relative path components. -/
def joinP (a b : String) : String := a ++ "/" ++ b

/-- `re.fullmatch('subj_(0*{})'.format(subjID), name)`: the name is `subj_`
followed by some run of zeros and then the decimal print of `subjID`.
The run length is forced, so a single equality test decides the match. -/
def subjPatMatch (subjID : Nat) (name : String) : Bool :=
  startsL "subj_".data name.data &&
    decide (List.replicate ((name.data.drop 5).length - (natRepr subjID).length) '0' ++
      natRepr subjID = name.data.drop 5)

/-- `get_image(dirname, group, subjID, modality)`: glob the group directory
for `subj_*` entries (an absent group directory globs to `[]`), take the
first entry whose name fullmatches `subj_0*<subjID>`, keep its zero-padded ID
(the captured group, i.e. everything after `subj_`), build
`<group>_subj_<padded>_<modality>.nii.gz` inside that directory, and return
the path if it exists, `None` otherwise.  The `for … else` returns `None`
when no entry matches. -/
def get_image (dirname : String) (ds : List GroupDir) (group : String) (subjID : Nat)
    (modality : String) : Option String :=
  let subjdirs : List SubjDir :=
    match ds.find? (fun gd => gd.name == group) with
    | some gd => gd.subjs.filter fun sd => isSubjName sd.name
    | none => []
  match subjdirs.find? (fun sd => subjPatMatch subjID sd.name) with
  | none => none
  | some sd =>
    let padsubjID : String := String.mk (sd.name.data.drop 5)
    let fname := group ++ "_subj_" ++ padsubjID ++ "_" ++ modality ++ ".nii.gz"
    if fname ∈ sd.files then
      some (joinP (joinP (joinP dirname group) sd.name) fname)
    else none

/-- The subject-directory test in the words of the claim: a `subj_` entry
whose numeric value after stripping leading zeros (i.e. the value `int`
assigns to the digit string after `subj_`) equals the requested ID. -/
def subjNumMatch (subjID : Nat) (name : String) : Bool :=
  startsL "subj_".data name.data && (pyInt (name.data.drop 5) == some subjID)

/-- `get_image` as the claim words it: search the group directory for a
`subj_*` entry whose numeric value equals the requested ID, construct
`<group>_subj_<padded-id>_<modality>.nii.gz` inside it, return that exact
path if the file exists and `none` otherwise — never an exception. -/
def get_image_spec (dirname : String) (ds : List GroupDir) (group : String) (subjID : Nat)
    (modality : String) : Option String :=
  let subjdirs : List SubjDir :=
    match ds.find? (fun gd => gd.name == group) with
    | some gd => gd.subjs.filter fun sd => isSubjName sd.name
    | none => []
  match subjdirs.find? (fun sd => subjNumMatch subjID sd.name) with
  | none => none
  | some sd =>
    let padsubjID : String := String.mk (sd.name.data.drop 5)
    let fname := group ++ "_subj_" ++ padsubjID ++ "_" ++ modality ++ ".nii.gz"
    if fname ∈ sd.files then
      some (joinP (joinP (joinP dirname group) sd.name) fname)
    else none

/-- The regex `subj_0*<id>` accepts a name exactly when the digits after
`subj_` are a zero-padded decimal spelling of `id`. -/
theorem subjPatMatch_eq_subjNumMatch (subjID : Nat) (name : String) :
    subjPatMatch subjID name = subjNumMatch subjID name := by
  unfold subjPatMatch subjNumMatch
  cases hpre : startsL "subj_".data name.data
  · simp
  · simp only [Bool.true_and]
    by_cases hdec : List.replicate ((name.data.drop 5).length - (natRepr subjID).length) '0' ++
        natRepr subjID = name.data.drop 5
    · rw [decide_eq_true hdec]
      have hall : ∀ c ∈ name.data.drop 5, isDigitCh c = true := by
        rw [← hdec]
        intro c hc
        rcases List.mem_append.mp hc with h | h
        · rw [List.eq_of_mem_replicate h]; decide
        · exact natRepr_all_digits _ c h
      have hne : name.data.drop 5 ≠ [] := by
        rw [← hdec]
        simp [natRepr_ne_nil]
      have hval : natOfDigits (name.data.drop 5) = subjID := by
        rw [← hdec, natOfDigits_replicate_zero_append, natOfDigits_natRepr]
      have hpi : pyInt (name.data.drop 5) = some subjID := by
        simp [pyInt, hne, List.all_eq_true.mpr hall, hval]
      rw [hpi]
      simp
    · rw [decide_eq_false hdec]
      cases hpi : pyInt (name.data.drop 5) with
      | none => simp
      | some v =>
        by_cases hv : v = subjID
        · subst hv
          exfalso
          unfold pyInt at hpi
          by_cases hcond : name.data.drop 5 ≠ [] ∧ (name.data.drop 5).all isDigitCh
          · rw [if_pos hcond] at hpi
            have hval : natOfDigits (name.data.drop 5) = v := Option.some.inj hpi
            have hdecomp := digits_decomp (name.data.drop 5) hcond.1
              (List.all_eq_true.mp hcond.2)
            rw [hval] at hdecomp
            exact hdec hdecomp.symm
          · rw [if_neg hcond] at hpi
            exact Option.noConfusion hpi
        · simp [hv]

theorem find?_congr {α : Type} (p q : α → Bool) (h : ∀ a, p a = q a) :
    ∀ l : List α, l.find? p = l.find? q := by
  intro l
  induction l with
  | nil => rfl
  | cons a t ih =>
    rw [List.find?_cons, List.find?_cons, h a]
    cases q a
    · exact ih
    · rfl

/-- Claim C7: the group-known Image Locator behaves exactly as specified —
it searches the group directory for a `subj_*` entry whose numeric value
after stripping leading zeros equals the requested ID (the regex
`subj_0*<id>` accepts precisely those names), builds
`<group>_subj_<padded-id>_<modality>.nii.gz` inside the first such entry,
and returns that exact path when the file exists and `none` otherwise; being
a total function into `Option`, it never raises — a missing group directory,
a missing subject directory, and a non-existent modality all yield `none`. -/
theorem claim_C7_get_image_spec (dirname : String) (ds : List GroupDir) (group : String)
    (subjID : Nat) (modality : String) :
    get_image dirname ds group subjID modality =
      get_image_spec dirname ds group subjID modality := by
  unfold get_image get_image_spec
  simp only [find?_congr (fun sd : SubjDir => subjPatMatch subjID sd.name)
    (fun sd : SubjDir => subjNumMatch subjID sd.name)
    (fun sd => subjPatMatch_eq_subjNumMatch subjID sd.name)]

example : get_image "data" [⟨"controls", [⟨"subj_007", ["controls_subj_007_t1.nii.gz"]⟩]⟩]
    "controls" 7 "t1" = some "data/controls/subj_007/controls_subj_007_t1.nii.gz" := by decide

example : get_image "data" [⟨"controls", [⟨"subj_007", ["controls_subj_007_t1.nii.gz"]⟩]⟩]
    "controls" 7 "t2" = none := by decide

example : get_image "data" [⟨"controls", [⟨"subj_007", ["controls_subj_007_t1.nii.gz"]⟩]⟩]
    "patients" 7 "t1" = none := by decide

example : get_image "data" [⟨"controls", [⟨"subj_007", ["controls_subj_007_t1.nii.gz"]⟩]⟩]
    "controls" 8 "t1" = none := by decide

example : get_image "data" [⟨"controls", [⟨"subj_70", ["controls_subj_70_t1.nii.gz"]⟩]⟩]
    "controls" 7 "t1" = none := by decide

/-! ## `get_image_nogroup` -/

mutual
/-- A directory tree: basename, subdirectories (in listing order), files. -/
inductive FsTree where
  | node : String → FsForest → List String → FsTree
/-- A list of sibling directories. -/
inductive FsForest where
  | nil : FsForest
  | cons : FsTree → FsForest → FsForest
end

def FsTree.name : FsTree → String
  | .node n _ _ => n

def FsTree.subs : FsTree → FsForest
  | .node _ ds _ => ds

def FsTree.files : FsTree → List String
  | .node _ _ fs => fs

mutual
/-- The `(root, d)` pairs visited by
`for root, dirs, files in os.walk(...): for d in dirs: ...`, in visiting
order, for the tree at path `q` (as components).  `os.walk` is top-down:
the current directory's `dirs` entries come first, then each subdirectory's
walk in listing order. -/
def walkSeq : FsTree → List String → List (List String × String)
  | .node _ ds _, q => walkTops ds q ++ walkRec ds q
/-- The inner `for d in dirs` pairs of a single `os.walk` step. -/
def walkTops : FsForest → List String → List (List String × String)
  | .nil, _ => []
  | .cons c cs, q => (q, c.name) :: walkTops cs q
/-- The recursive walks of the subdirectories, in order. -/
def walkRec : FsForest → List String → List (List String × String)
  | .nil, _ => []
  | .cons c cs, q => walkSeq c (q ++ [c.name]) ++ walkRec cs q
end

def findChild : FsForest → String → Option FsTree
  | .nil, _ => none
  | .cons c cs, n => if c.name = n then some c else findChild cs n

/-- Navigate from a node along path components. -/
def descend : FsTree → List String → Option FsTree
  | t, [] => some t
  | t, n :: rest =>
    match findChild t.subs n with
    | none => none
    | some c => descend c rest

/-- `op.exists` for `absPath/fname` under the tree rooted at `rootPath`. -/
def fexists (t : FsTree) (rootPath absPath : List String) (fname : String) : Bool :=
  match descend t (absPath.drop rootPath.length) with
  | none => false
  | some nd => decide (fname ∈ nd.files)

/-- `op.join` over a component list. -/
def joinComps : List String → String
  | [] => ""
  | h :: t => t.foldl (fun a b => a ++ "/" ++ b) h

/-- `get_image_nogroup(dirname, subjID, modality)`: walk the whole tree,
remembering the *last* directory whose basename fullmatches `subj_0*<id>`
(the loop assigns without breaking), infer the group as the basename of that
directory's parent, and check
`<group>_subj_<padded>_<modality>.nii.gz` inside it. -/
def get_image_nogroup (rootPath : List String) (t : FsTree) (subjID : Nat)
    (modality : String) : Option String :=
  match (walkSeq t rootPath).foldl
      (fun acc pr => if subjPatMatch subjID pr.2 then some pr else acc) none with
  | none => none
  | some (r, d) =>
    let group := r.getLastD ""
    let padsubjID : String := String.mk (d.data.drop 5)
    let fname := group ++ "_subj_" ++ padsubjID ++ "_" ++ modality ++ ".nii.gz"
    if fexists t rootPath (r ++ [d]) fname then
      some (joinComps (r ++ [d]) ++ "/" ++ fname)
    else none

/-- The update-without-break loop keeps the last match. -/
theorem foldl_if_some_eq_getLast {α : Type} (p : α → Bool) :
    ∀ (l : List α) (acc : Option α),
      l.foldl (fun a x => if p x then some x else a) acc =
        (match (l.filter p).getLast? with
         | none => acc
         | some x => some x) := by
  intro l
  induction l using List.reverseRecOn with
  | nil => intro acc; rfl
  | append_singleton l x ih =>
    intro acc
    rw [List.foldl_append]
    simp only [List.foldl_cons, List.foldl_nil]
    rw [ih acc]
    by_cases hx : p x
    · rw [if_pos hx]
      have hfx : List.filter p [x] = [x] := by simp [hx]
      rw [List.filter_append, hfx, List.getLast?_concat]
    · rw [if_neg hx]
      have hfx : List.filter p [x] = [] := by simp [hx]
      rw [List.filter_append, hfx, List.append_nil]

/-- Claim C8: the group-unknown Image Locator always acts on the *last*
directory in `os.walk` traversal order whose basename matches the subject
pattern — earlier matches are overwritten — and infers the group from that
directory's parent basename (`r.getLastD ""` below, the last component of
the parent path); the constructed file is looked up inside that last match
only. -/
theorem claim_C8_nogroup_last_match_wins (rootPath : List String) (t : FsTree)
    (subjID : Nat) (modality : String) :
    get_image_nogroup rootPath t subjID modality =
      (match ((walkSeq t rootPath).filter fun pr => subjPatMatch subjID pr.2).getLast? with
       | none => none
       | some (r, d) =>
         if fexists t rootPath (r ++ [d]) (r.getLastD "" ++ "_subj_" ++
             String.mk (d.data.drop 5) ++ "_" ++ modality ++ ".nii.gz") then
           some (joinComps (r ++ [d]) ++ "/" ++ (r.getLastD "" ++ "_subj_" ++
             String.mk (d.data.drop 5) ++ "_" ++ modality ++ ".nii.gz"))
         else none) := by
  unfold get_image_nogroup
  rw [foldl_if_some_eq_getLast (fun pr => subjPatMatch subjID pr.2) (walkSeq t rootPath) none]
  cases ((walkSeq t rootPath).filter fun pr => subjPatMatch subjID pr.2).getLast? with
  | none => rfl
  | some pr => cases pr; rfl

/-- A malformed demo dataset with two directories matching subject ID 7:
`controls/subj_07` is visited before `patients/subj_7`, so the later one
wins. -/
def demoTree : FsTree :=
  .node "data"
    (.cons (.node "controls"
        (.cons (.node "subj_07" .nil ["controls_subj_07_t1.nii.gz"]) .nil) [])
      (.cons (.node "patients"
        (.cons (.node "subj_7" .nil ["patients_subj_7_t1.nii.gz"]) .nil) [])
      .nil))
    []

example : get_image_nogroup ["data"] demoTree 7 "t1" =
    some "data/patients/subj_7/patients_subj_7_t1.nii.gz" := by decide

example : ((walkSeq demoTree ["data"]).filter fun pr => subjPatMatch 7 pr.2) =
    [(["data", "controls"], "subj_07"), (["data", "patients"], "subj_7")] := by decide

/-! ## `reorganise_data_set`
(`getting_started/03_file_management/.solutions/re_organise_a_data_set.py`) -/

/-- Dataset root state while the reorganiser runs: the entries currently in
the root (subject dirs not yet moved, plus the group dirs made so far, plus
unrelated entries), and each made group directory's contents. -/
structure GState where
  root : List String
  made : List (String × List String)
deriving DecidableEq

/-- `os.mkdir(groupdir)`: fails (`FileExistsError`, modelled `none`) when an
entry of that name exists. -/
def mkdirG (st : GState) (label : String) : Option GState :=
  if label ∈ st.root then none
  else some ⟨st.root ++ [label], st.made ++ [(label, [])]⟩

/-- `shutil.move(subjdir, groupdir)`: the destination is an existing group
directory, so the source directory is moved inside it as `groupdir/subjdir`
(failing when that path exists); a samefile pair is a no-op rename; a missing
source is an `os.rename` error.  The branch where `groupdir` is no known
directory is unreachable here, since `reorganise_data_set` always creates the
group directory first. -/
def moveToGroup (st : GState) (label name : String) : Option GState :=
  if name = label then
    if name ∈ st.root then some st else none
  else if name ∈ st.root then
    match st.made.find? (fun g => g.1 == label) with
    | none => none
    | some g =>
      if name ∈ g.2 then none
      else some ⟨st.root.erase name,
        st.made.map fun g' => if g'.1 = label then (g'.1, g'.2 ++ [name]) else g'⟩
  else none

/-- `reorganise_data_set(dirname, groupLabels, groups)`: glob and parse the
subject directories once, then for each `(label, group)` pair make the group
directory and move each listed subject's directory (found as
`subjdirs[subjids.index(sid)]`) into it.  `none` models the uncaught
exceptions (`ValueError` from `int` or a failed `index`, `FileExistsError`
from `mkdir`, `shutil`/`os` errors from `move`). -/
def reorganise_data_set (entries : List String) (groupLabels : List String)
    (groups : List (List Nat)) : Option GState := do
  let subjdirs := entries.filter fun e => isSubjName e
  let subjids ← subjdirs.mapM subjIdOf
  (groupLabels.zip groups).foldlM
    (fun st lg => do
      let st₁ ← mkdirG st lg.1
      lg.2.foldlM
        (fun st₂ sid =>
          if sid ∈ subjids then
            moveToGroup st₂ lg.1 (subjdirs.getD (subjids.indexOf sid) "")
          else none)
        st₁)
    ⟨entries, []⟩

example : reorganise_data_set ["subj_1", "subj_2", "subj_3", "notes"]
    ["g1", "g2"] [[2], [3, 1]] =
    some ⟨["notes", "g1", "g2"],
      [("g1", ["subj_2"]), ("g2", ["subj_3", "subj_1"])]⟩ := by decide

example : reorganise_data_set ["subj_1", "g1"] ["g1"] [[1]] = none := by decide

example : reorganise_data_set ["subj_1"] ["g1"] [[2]] = none := by decide

/-- One group's inner move loop: with the group directory freshly present as
the last `made` entry, all listed subjects distinct, present, and distinct
from the label, the loop moves each subject's directory into the group. -/
theorem move_loop (subjdirs : List String) (subjids : List Nat) (label : String) :
    ∀ (sids : List Nat) (root : List String) (M : List (String × List String))
      (c : List String),
    (∀ g ∈ M, g.1 ≠ label) →
    sids.Nodup →
    (∀ sid ∈ sids, sid ∈ subjids) →
    (∀ a ∈ sids, ∀ b ∈ sids, subjdirs.getD (subjids.indexOf a) "" =
      subjdirs.getD (subjids.indexOf b) "" → a = b) →
    (∀ sid ∈ sids, subjdirs.getD (subjids.indexOf sid) "" ∈ root) →
    (∀ sid ∈ sids, subjdirs.getD (subjids.indexOf sid) "" ≠ label) →
    (∀ sid ∈ sids, subjdirs.getD (subjids.indexOf sid) "" ∉ c) →
    sids.foldlM
      (fun st₂ sid =>
        if sid ∈ subjids then
          moveToGroup st₂ label (subjdirs.getD (subjids.indexOf sid) "")
        else none)
      (⟨root, M ++ [(label, c)]⟩ : GState) =
    some ⟨root.diff (sids.map fun sid => subjdirs.getD (subjids.indexOf sid) ""),
      M ++ [(label, c ++ sids.map fun sid => subjdirs.getD (subjids.indexOf sid) "")]⟩ := by
  intro sids
  induction sids with
  | nil =>
    intro root M c _ _ _ _ _ _ _
    simp
  | cons sid rest ih =>
    intro root M c hM hnd hin hinj hmem hlab hc
    obtain ⟨hsid1, hndtail⟩ := List.nodup_cons.mp hnd
    have hfmem : subjdirs.getD (subjids.indexOf sid) "" ∈ root :=
      hmem sid (List.mem_cons_self _ _)
    have hmove : moveToGroup ⟨root, M ++ [(label, c)]⟩ label
        (subjdirs.getD (subjids.indexOf sid) "") =
        some ⟨root.erase (subjdirs.getD (subjids.indexOf sid) ""),
          M ++ [(label, c ++ [subjdirs.getD (subjids.indexOf sid) ""])]⟩ := by
      unfold moveToGroup
      rw [if_neg (hlab sid (List.mem_cons_self _ _))]
      rw [if_pos hfmem]
      have hfind : (M ++ [(label, c)]).find? (fun g => g.1 == label) = some (label, c) := by
        rw [List.find?_append]
        have hnone : M.find? (fun g => g.1 == label) = none := by
          apply List.find?_eq_none.mpr
          intro g hg
          simp [hM g hg]
        rw [hnone]
        simp [List.find?_cons]
      simp only [hfind]
      rw [if_neg (hc sid (List.mem_cons_self _ _))]
      have hmap : (M ++ [(label, c)]).map (fun g' => if g'.1 = label then
          (g'.1, g'.2 ++ [subjdirs.getD (subjids.indexOf sid) ""]) else g') =
          M ++ [(label, c ++ [subjdirs.getD (subjids.indexOf sid) ""])] := by
        rw [List.map_append]
        have h1 : M.map (fun g' => if g'.1 = label then
            (g'.1, g'.2 ++ [subjdirs.getD (subjids.indexOf sid) ""]) else g') = M := by
          have hmc : M.map (fun g' : String × List String =>
              if g'.1 = label then (g'.1, g'.2 ++ [subjdirs.getD (subjids.indexOf sid) ""])
              else g') = M.map (fun g' => g') :=
            List.map_congr_left (fun g' hg' => by
              show (if g'.1 = label then
                (g'.1, g'.2 ++ [subjdirs.getD (subjids.indexOf sid) ""]) else g') = g'
              rw [if_neg (hM g' hg')])
          rw [hmc, List.map_id']
        rw [h1]
        simp
      rw [hmap]
    have hstep : (sid :: rest).foldlM
        (fun st₂ s =>
          if s ∈ subjids then
            moveToGroup st₂ label (subjdirs.getD (subjids.indexOf s) "")
          else none)
        (⟨root, M ++ [(label, c)]⟩ : GState) =
        ((if sid ∈ subjids then
            moveToGroup ⟨root, M ++ [(label, c)]⟩ label
              (subjdirs.getD (subjids.indexOf sid) "")
          else none).bind fun st =>
          rest.foldlM
            (fun st₂ s =>
              if s ∈ subjids then
                moveToGroup st₂ label (subjdirs.getD (subjids.indexOf s) "")
              else none) st) := rfl
    rw [hstep, if_pos (hin sid (List.mem_cons_self _ _)), hmove]
    have hrec := ih (root.erase (subjdirs.getD (subjids.indexOf sid) ""))
      M (c ++ [subjdirs.getD (subjids.indexOf sid) ""]) hM hndtail
      (fun s hs => hin s (List.mem_cons_of_mem _ hs))
      (fun a ha b hb => hinj a (List.mem_cons_of_mem _ ha) b (List.mem_cons_of_mem _ hb))
      (by
        intro s hs
        apply (List.mem_erase_of_ne ?_).mpr (hmem s (List.mem_cons_of_mem _ hs))
        intro heq
        exact hsid1 ((hinj s (List.mem_cons_of_mem _ hs) sid (List.mem_cons_self _ _) heq) ▸ hs))
      (fun s hs => hlab s (List.mem_cons_of_mem _ hs))
      (by
        intro s hs hmem2
        rcases List.mem_append.mp hmem2 with h | h
        · exact hc s (List.mem_cons_of_mem _ hs) h
        · have heq : subjdirs.getD (subjids.indexOf s) "" =
              subjdirs.getD (subjids.indexOf sid) "" := by simpa using h
          exact hsid1 ((hinj s (List.mem_cons_of_mem _ hs) sid (List.mem_cons_self _ _) heq) ▸ hs))
    show rest.foldlM _ _ = _
    rw [hrec]
    rw [List.map_cons, List.diff_cons, List.append_assoc]
    rfl

/-- The whole group loop: with fresh distinct labels and disjoint groups of
present subjects, each group directory is created and filled, and the root
keeps the unmoved entries plus the group directories. -/
theorem reorg_loop (subjdirs : List String) (subjids : List Nat) :
    ∀ (prs : List (String × List Nat)) (root : List String)
      (M : List (String × List String)),
    root.Nodup →
    (prs.map Prod.fst).Nodup →
    (∀ lab ∈ prs.map Prod.fst, lab ∉ root) →
    (∀ lab ∈ prs.map Prod.fst, ∀ g ∈ M, g.1 ≠ lab) →
    ((prs.map Prod.snd).join).Nodup →
    (∀ sid ∈ (prs.map Prod.snd).join, sid ∈ subjids) →
    (∀ sid ∈ (prs.map Prod.snd).join, subjdirs.getD (subjids.indexOf sid) "" ∈ root) →
    (∀ sid ∈ (prs.map Prod.snd).join, ∀ lab ∈ prs.map Prod.fst,
      subjdirs.getD (subjids.indexOf sid) "" ≠ lab) →
    (∀ a ∈ (prs.map Prod.snd).join, ∀ b ∈ (prs.map Prod.snd).join,
      subjdirs.getD (subjids.indexOf a) "" = subjdirs.getD (subjids.indexOf b) "" → a = b) →
    prs.foldlM
      (fun st lg => do
        let st₁ ← mkdirG st lg.1
        lg.2.foldlM
          (fun st₂ sid =>
            if sid ∈ subjids then
              moveToGroup st₂ lg.1 (subjdirs.getD (subjids.indexOf sid) "")
            else none)
          st₁)
      (⟨root, M⟩ : GState) =
    some ⟨root.diff (((prs.map Prod.snd).join).map fun sid =>
        subjdirs.getD (subjids.indexOf sid) "") ++ prs.map Prod.fst,
      M ++ prs.map fun lg =>
        (lg.1, lg.2.map fun sid => subjdirs.getD (subjids.indexOf sid) "")⟩ := by
  intro prs
  induction prs with
  | nil =>
    intro root M _ _ _ _ _ _ _ _ _
    simp
  | cons pr rest ih =>
    obtain ⟨lab, g⟩ := pr
    intro root M hroot hfst hlabroot hlabM hjoin hin hmemf hflab hinj
    simp only [List.map_cons, List.join_cons] at hfst hlabroot hlabM hjoin hin hmemf hflab hinj
    obtain ⟨hlab1, hfsttail⟩ := List.nodup_cons.mp hfst
    have hgnodup : g.Nodup := (List.nodup_append.mp hjoin).1
    have hrestnodup : ((rest.map Prod.snd).join).Nodup := (List.nodup_append.mp hjoin).2.1
    have hdisj : ∀ a ∈ g, a ∉ (rest.map Prod.snd).join :=
      fun a ha hb => (List.nodup_append.mp hjoin).2.2 ha hb
    have hlabroot1 : lab ∉ root := hlabroot lab (List.mem_cons_self _ _)
    have hmkdir : mkdirG ⟨root, M⟩ lab = some ⟨root ++ [lab], M ++ [(lab, [])]⟩ := by
      simp [mkdirG, hlabroot1]
    have hlabnotg : lab ∉ g.map fun sid => subjdirs.getD (subjids.indexOf sid) "" := by
      intro hmem
      obtain ⟨sid, hsid, hfs⟩ := List.mem_map.mp hmem
      exact hflab sid (List.mem_append_left _ hsid) lab (List.mem_cons_self _ _) hfs
    have hlabnotrest : lab ∉ ((rest.map Prod.snd).join).map fun sid =>
        subjdirs.getD (subjids.indexOf sid) "" := by
      intro hmem
      obtain ⟨sid, hsid, hfs⟩ := List.mem_map.mp hmem
      exact hflab sid (List.mem_append_right _ hsid) lab (List.mem_cons_self _ _) hfs
    have hinner := move_loop subjdirs subjids lab g (root ++ [lab]) M []
      (fun g' hg' => hlabM lab (List.mem_cons_self _ _) g' hg')
      hgnodup
      (fun sid hsid => hin sid (List.mem_append_left _ hsid))
      (fun a ha b hb => hinj a (List.mem_append_left _ ha) b (List.mem_append_left _ hb))
      (fun sid hsid => List.mem_append_left _ (hmemf sid (List.mem_append_left _ hsid)))
      (fun sid hsid => hflab sid (List.mem_append_left _ hsid) lab (List.mem_cons_self _ _))
      (by intro sid _ hmem; simp at hmem)
    have hstep : ((lab, g) :: rest).foldlM
        (fun st lg => do
          let st₁ ← mkdirG st lg.1
          lg.2.foldlM
            (fun st₂ sid =>
              if sid ∈ subjids then
                moveToGroup st₂ lg.1 (subjdirs.getD (subjids.indexOf sid) "")
              else none)
            st₁)
        (⟨root, M⟩ : GState) =
        ((do
          let st₁ ← mkdirG ⟨root, M⟩ lab
          g.foldlM
            (fun st₂ sid =>
              if sid ∈ subjids then
                moveToGroup st₂ lab (subjdirs.getD (subjids.indexOf sid) "")
              else none)
            st₁).bind fun st =>
          rest.foldlM
            (fun st (lg : String × List Nat) => do
              let st₁ ← mkdirG st lg.1
              lg.2.foldlM
                (fun st₂ sid =>
                  if sid ∈ subjids then
                    moveToGroup st₂ lg.1 (subjdirs.getD (subjids.indexOf sid) "")
                  else none)
                st₁) st) := rfl
    rw [hstep, hmkdir]
    have hbindstep : (do
        let st₁ ← some (⟨root ++ [lab], M ++ [(lab, [])]⟩ : GState)
        g.foldlM
          (fun st₂ sid =>
            if sid ∈ subjids then
              moveToGroup st₂ lab (subjdirs.getD (subjids.indexOf sid) "")
            else none)
          st₁) =
        some (⟨(root ++ [lab]).diff (g.map fun sid => subjdirs.getD (subjids.indexOf sid) ""),
          M ++ [(lab, g.map fun sid => subjdirs.getD (subjids.indexOf sid) "")]⟩ : GState) := by
      show g.foldlM _ (⟨root ++ [lab], M ++ [(lab, [])]⟩ : GState) = _
      rw [hinner]
      rw [List.nil_append]
    have hrootsplit : (root ++ [lab]).diff
        (g.map fun sid => subjdirs.getD (subjids.indexOf sid) "") =
        root.diff (g.map fun sid => subjdirs.getD (subjids.indexOf sid) "") ++ [lab] :=
      diff_append_singleton _ _ hlabnotg
    have hrec := ih (root.diff (g.map fun sid => subjdirs.getD (subjids.indexOf sid) "") ++ [lab])
      (M ++ [(lab, g.map fun sid => subjdirs.getD (subjids.indexOf sid) "")])
      (by
        rw [List.nodup_append]
        refine ⟨(List.diff_sublist _ _).nodup hroot, by simp, ?_⟩
        intro a ha hb
        have : a = lab := by simpa using hb
        subst this
        exact hlabroot1 ((List.diff_sublist _ _).subset ha))
      hfsttail
      (by
        intro lab' hlab'
        intro hmem
        rcases List.mem_append.mp hmem with h | h
        · exact hlabroot lab' (List.mem_cons_of_mem _ hlab') ((List.diff_sublist _ _).subset h)
        · have : lab' = lab := by simpa using h
          exact hlab1 (this ▸ hlab'))
      (by
        intro lab' hlab' g' hg'
        rcases List.mem_append.mp hg' with h | h
        · exact hlabM lab' (List.mem_cons_of_mem _ hlab') g' h
        · have : g' = (lab, g.map fun sid => subjdirs.getD (subjids.indexOf sid) "") := by
            simpa using h
          subst this
          intro hcon
          have hlabeq : lab = lab' := hcon
          exact hlab1 (by rw [hlabeq]; exact hlab'))
      hrestnodup
      (fun sid hsid => hin sid (List.mem_append_right _ hsid))
      (by
        intro sid hsid
        apply List.mem_append_left
        apply List.mem_diff_of_mem (hmemf sid (List.mem_append_right _ hsid))
        intro hmem
        obtain ⟨b, hb, hfb⟩ := List.mem_map.mp hmem
        have : sid = b := hinj sid (List.mem_append_right _ hsid) b
          (List.mem_append_left _ hb) hfb.symm
        exact hdisj b hb (this ▸ hsid))
      (fun sid hsid lab' hlab' => hflab sid (List.mem_append_right _ hsid) lab'
        (List.mem_cons_of_mem _ hlab'))
      (fun a ha b hb => hinj a (List.mem_append_right _ ha) b (List.mem_append_right _ hb))
    rw [hrootsplit] at hbindstep
    rw [hbindstep]
    show rest.foldlM _ _ = _
    rw [hrec]
    simp only [List.map_cons, List.join_cons, List.map_append]
    have hA : (root.diff (g.map fun sid => subjdirs.getD (subjids.indexOf sid) "") ++
        [lab]).diff
        (((rest.map Prod.snd).join).map fun sid => subjdirs.getD (subjids.indexOf sid) "") ++
        rest.map Prod.fst =
        root.diff ((g.map fun sid => subjdirs.getD (subjids.indexOf sid) "") ++
          ((rest.map Prod.snd).join).map fun sid => subjdirs.getD (subjids.indexOf sid) "") ++
        lab :: rest.map Prod.fst := by
      rw [List.diff_append]
      rw [diff_append_singleton _ _ hlabnotrest]
      rw [List.append_assoc]
      rfl
    have hB : (M ++ [(lab, g.map fun sid => subjdirs.getD (subjids.indexOf sid) "")]) ++
        rest.map (fun lg => (lg.1, lg.2.map fun sid => subjdirs.getD (subjids.indexOf sid) "")) =
        M ++ ((lab, g.map fun sid => subjdirs.getD (subjids.indexOf sid) "") ::
          rest.map (fun lg =>
            (lg.1, lg.2.map fun sid => subjdirs.getD (subjids.indexOf sid) ""))) := by
      rw [List.append_assoc]
      rfl
    rw [hA, hB]

/-- Claim C4: with disjoint groups covering the parsed subject IDs exactly
(each listed ID names exactly one existing `subj_*` directory, of any zero
padding — lookup goes through `int(sd.split('_')[1])`), fresh distinct group
labels, and matching label/group lists, the Reorganizer succeeds; afterwards
each group directory holds exactly the directories of its assigned IDs (in
order), the directories collected over all group directories are the
original subject directories exactly once each, and the root keeps exactly
the non-subject entries plus the group directories. -/
theorem claim_C4_reorganiser (entries : List String) (groupLabels : List String)
    (groups : List (List Nat)) (ids : List Nat)
    (hnd : entries.Nodup)
    (hids : (entries.filter fun e => isSubjName e).mapM subjIdOf = some ids)
    (hidnd : ids.Nodup)
    (hlen : groupLabels.length = groups.length)
    (hlabnd : groupLabels.Nodup)
    (hlabent : ∀ lab ∈ groupLabels, lab ∉ entries)
    (hjoinnd : groups.join.Nodup)
    (hsub : ∀ sid ∈ groups.join, sid ∈ ids)
    (hcover : ∀ i ∈ ids, i ∈ groups.join) :
    ∃ st : GState, reorganise_data_set entries groupLabels groups = some st ∧
      st.made = groupLabels.zip (groups.map fun g => g.map fun sid =>
        (entries.filter fun e => isSubjName e).getD (ids.indexOf sid) "") ∧
      (∀ pr ∈ groups.zip st.made, pr.2.2.map subjIdOf = pr.1.map some) ∧
      ((st.made.map Prod.snd).join).Perm (entries.filter fun e => isSubjName e) ∧
      st.root.Perm ((entries.filter fun e => !(isSubjName e)) ++ groupLabels) := by
  obtain ⟨hlen0, hget⟩ := mapM_option_spec subjIdOf (entries.filter fun e => isSubjName e) ids hids
  have hfmem : ∀ sid ∈ ids, (entries.filter fun e => isSubjName e).getD (ids.indexOf sid) "" ∈
      (entries.filter fun e => isSubjName e) := by
    intro sid hsid
    have hk : ids.indexOf sid < ids.length := List.indexOf_lt_length.mpr hsid
    have hk2 : ids.indexOf sid < (entries.filter fun e => isSubjName e).length := hlen0 ▸ hk
    rw [List.getD_eq_get _ _ hk2]
    exact List.get_mem _ _ _
  have hfparse : ∀ sid ∈ ids, subjIdOf
      ((entries.filter fun e => isSubjName e).getD (ids.indexOf sid) "") = some sid := by
    intro sid hsid
    have hk : ids.indexOf sid < ids.length := List.indexOf_lt_length.mpr hsid
    have hk2 : ids.indexOf sid < (entries.filter fun e => isSubjName e).length := hlen0 ▸ hk
    rw [List.getD_eq_get _ _ hk2]
    rw [hget (ids.indexOf sid) hk2 hk]
    congr 1
    rw [List.get_eq_getElem]
    exact List.getElem_indexOf hk
  have hfinj : ∀ a ∈ ids, ∀ b ∈ ids,
      (entries.filter fun e => isSubjName e).getD (ids.indexOf a) "" =
      (entries.filter fun e => isSubjName e).getD (ids.indexOf b) "" → a = b := by
    intro a ha b hb heq
    have h1 := hfparse a ha
    have h2 := hfparse b hb
    rw [heq] at h1
    exact Option.some.inj (h1.symm.trans h2)
  have hfnotlab : ∀ sid ∈ ids, ∀ lab ∈ groupLabels,
      (entries.filter fun e => isSubjName e).getD (ids.indexOf sid) "" ≠ lab := by
    intro sid hsid lab hlab heq
    exact hlabent lab hlab (heq ▸ List.mem_of_mem_filter (hfmem sid hsid))
  have hzfst : (groupLabels.zip groups).map Prod.fst = groupLabels :=
    List.map_fst_zip _ _ (le_of_eq hlen)
  have hzsnd : (groupLabels.zip groups).map Prod.snd = groups :=
    List.map_snd_zip _ _ (le_of_eq hlen.symm)
  have hloop := reorg_loop (entries.filter fun e => isSubjName e) ids
    (groupLabels.zip groups) entries [] hnd
    (by rw [hzfst]; exact hlabnd)
    (by rw [hzfst]; exact hlabent)
    (by intro lab _ g hg; simp at hg)
    (by rw [hzsnd]; exact hjoinnd)
    (by rw [hzsnd]; exact hsub)
    (by
      rw [hzsnd]
      intro sid hsid
      exact List.mem_of_mem_filter (hfmem sid (hsub sid hsid)))
    (by
      rw [hzsnd, hzfst]
      intro sid hsid lab hlab
      exact hfnotlab sid (hsub sid hsid) lab hlab)
    (by
      rw [hzsnd]
      intro a ha b hb
      exact hfinj a (hsub a ha) b (hsub b hb))
  have hrun : reorganise_data_set entries groupLabels groups =
      some ⟨entries.diff ((((groupLabels.zip groups).map Prod.snd).join).map fun sid =>
          (entries.filter fun e => isSubjName e).getD (ids.indexOf sid) "") ++
        (groupLabels.zip groups).map Prod.fst,
        [] ++ (groupLabels.zip groups).map fun lg =>
          (lg.1, lg.2.map fun sid =>
            (entries.filter fun e => isSubjName e).getD (ids.indexOf sid) "")⟩ := by
    simp only [reorganise_data_set]
    rw [hids]
    exact hloop
  have hperm_join : groups.join.Perm ids :=
    List.Subperm.antisymm (hjoinnd.subperm fun _ ha => hsub _ ha)
      (hidnd.subperm fun _ ha => hcover _ ha)
  have hidsmapf : ids.map (fun sid =>
      (entries.filter fun e => isSubjName e).getD (ids.indexOf sid) "") =
      entries.filter fun e => isSubjName e := by
    apply List.ext_get
    · rw [List.length_map]; exact hlen0
    · intro n h1 h2
      rw [List.get_map]
      have hn : ids.indexOf (ids.get ⟨n, by simpa using h1⟩) = n := List.get_indexOf hidnd _
      rw [hn, List.getD_eq_get _ _ h2]
  have hmade : ([] ++ (groupLabels.zip groups).map fun lg =>
      (lg.1, lg.2.map fun sid =>
        (entries.filter fun e => isSubjName e).getD (ids.indexOf sid) "")) =
      groupLabels.zip (groups.map fun g => g.map fun sid =>
        (entries.filter fun e => isSubjName e).getD (ids.indexOf sid) "") := by
    rw [List.nil_append, List.zip_map_right]
    apply List.map_congr_left
    intro lg _
    rfl
  refine ⟨_, hrun, hmade, ?_, ?_, ?_⟩
  · -- each group directory holds exactly its assigned IDs
    intro pr hpr
    rw [hmade] at hpr
    obtain ⟨k, hk1, hk2, rfl⟩ := mem_zip_getIdx hpr
    have hkz : k < (groupLabels.zip (groups.map fun g => g.map fun sid =>
        (entries.filter fun e => isSubjName e).getD (ids.indexOf sid) "")).length := hk2
    have hkl : k < groupLabels.length := by
      have := hk2
      rw [List.length_zip] at this
      omega
    have hkg : k < (groups.map fun g => g.map fun sid =>
        (entries.filter fun e => isSubjName e).getD (ids.indexOf sid) "").length := by
      rw [List.length_map]
      exact hk1
    have hzget : (groupLabels.zip (groups.map fun g => g.map fun sid =>
        (entries.filter fun e => isSubjName e).getD (ids.indexOf sid) "")).get ⟨k, hkz⟩ =
        (groupLabels.get ⟨k, hkl⟩, (groups.map fun g => g.map fun sid =>
          (entries.filter fun e => isSubjName e).getD (ids.indexOf sid) "").get ⟨k, hkg⟩) :=
      List.get_zip
    rw [hzget]
    simp only [List.get_map, List.map_map]
    apply List.map_congr_left
    intro sid hsid
    have hsidj : sid ∈ groups.join :=
      List.mem_join.mpr ⟨groups.get ⟨k, hk1⟩, List.get_mem _ _ _, hsid⟩
    exact hfparse sid (hsub sid hsidj)
  · -- the moved directories are the original subject set, once each
    rw [hmade]
    have hsndlen : (groups.map fun g => g.map fun sid =>
        (entries.filter fun e => isSubjName e).getD (ids.indexOf sid) "").length ≤
        groupLabels.length := by
      rw [List.length_map]
      omega
    rw [List.map_snd_zip _ _ hsndlen]
    show ((groups.map fun g : List Nat => g.map fun sid =>
        (entries.filter fun e => isSubjName e).getD (ids.indexOf sid) "").flatten).Perm
        (entries.filter fun e => isSubjName e)
    rw [← List.map_flatten]
    refine (List.Perm.map _ hperm_join).trans ?_
    rw [hidsmapf]
  · -- the root keeps the non-subject entries plus the group directories
    show (entries.diff ((((groupLabels.zip groups).map Prod.snd).join).map fun sid =>
        (entries.filter fun e => isSubjName e).getD (ids.indexOf sid) "") ++
      (groupLabels.zip groups).map Prod.fst).Perm _
    rw [hzsnd, hzfst]
    have hdiffeq : entries.diff ((groups.join).map fun sid =>
        (entries.filter fun e => isSubjName e).getD (ids.indexOf sid) "") =
        entries.diff (ids.map fun sid =>
          (entries.filter fun e => isSubjName e).getD (ids.indexOf sid) "") :=
      List.Perm.diff_left entries (List.Perm.map _ hperm_join)
    rw [hdiffeq, hidsmapf]
    exact List.Perm.append_right _ (diff_filter_perm _ entries)

/-- Witness for claim C4 at the root `{subj_1, subj_2, subj_3, notes}` with
group `g1 := {2}` and group `g2 := {3, 1}`: every hypothesis holds
concretely, and the Reorganizer's run satisfies all the claimed
postconditions. -/
theorem claim_C4_reorganiser_witness :
    ((["subj_1", "subj_2", "subj_3", "notes"] : List String).Nodup ∧
      ((["subj_1", "subj_2", "subj_3", "notes"] : List String).filter fun e =>
        isSubjName e).mapM subjIdOf = some [1, 2, 3] ∧
      ([1, 2, 3] : List Nat).Nodup ∧
      (["g1", "g2"] : List String).length = ([[2], [3, 1]] : List (List Nat)).length ∧
      (["g1", "g2"] : List String).Nodup ∧
      (∀ lab ∈ (["g1", "g2"] : List String),
        lab ∉ (["subj_1", "subj_2", "subj_3", "notes"] : List String)) ∧
      ([[2], [3, 1]] : List (List Nat)).join.Nodup ∧
      (∀ sid ∈ ([[2], [3, 1]] : List (List Nat)).join, sid ∈ ([1, 2, 3] : List Nat)) ∧
      (∀ i ∈ ([1, 2, 3] : List Nat), i ∈ ([[2], [3, 1]] : List (List Nat)).join)) ∧
    ∃ st : GState,
      reorganise_data_set ["subj_1", "subj_2", "subj_3", "notes"] ["g1", "g2"]
        [[2], [3, 1]] = some st ∧
      st.made = (["g1", "g2"] : List String).zip
        (([[2], [3, 1]] : List (List Nat)).map fun g => g.map fun sid =>
          ((["subj_1", "subj_2", "subj_3", "notes"] : List String).filter fun e =>
            isSubjName e).getD (([1, 2, 3] : List Nat).indexOf sid) "") ∧
      (∀ pr ∈ ([[2], [3, 1]] : List (List Nat)).zip st.made,
        pr.2.2.map subjIdOf = pr.1.map some) ∧
      ((st.made.map Prod.snd).join).Perm
        ((["subj_1", "subj_2", "subj_3", "notes"] : List String).filter fun e =>
          isSubjName e) ∧
      st.root.Perm
        (((["subj_1", "subj_2", "subj_3", "notes"] : List String).filter fun e =>
          !(isSubjName e)) ++ ["g1", "g2"]) :=
  ⟨⟨by decide, by decide, by decide, by decide, by decide, by decide, by decide,
      by decide, by decide⟩,
    claim_C4_reorganiser ["subj_1", "subj_2", "subj_3", "notes"] ["g1", "g2"]
      [[2], [3, 1]] [1, 2, 3]
      (by decide) (by decide) (by decide) (by decide) (by decide) (by decide)
      (by decide) (by decide) (by decide)⟩

end WinPytreat

